import Mathlib

/-!
# PiecesCLI: the response formatter, the sanitizer and the shell of `src/index.js`

A shallow embedding of `src/index.js`.  JavaScript strings are lists of characters
(`List Char`); none of the regular expressions of the source can tell a code point
from its UTF-16 code units, since every character they name lies in the basic plane,
and every index that `slice` receives stands next to the ASCII prefix or suffix that
the preceding `startsWith` / `endsWith` test has found.

External libraries (`chalk`, `highlight.js`, the two HTTP clients) are parameters of the
model: a `Chalk` record of style functions, a `Highlighter` record of the two
tokenizers (each gives the `.value` string of its result, or the exception it throws),
a `Backend` record of the two remote calls.  A function that can throw returns an
`Except JsError`.
-/

namespace PiecesCLI

/-! ## Characters -/

/-- The characters matched by `\s` in a JavaScript regular expression, which are also
the characters removed by `String.prototype.trim` (WhiteSpace and LineTerminator). -/
def isJsSpace (c : Char) : Bool :=
  let n := c.toNat
  n == 0x09 || n == 0x0A || n == 0x0B || n == 0x0C || n == 0x0D || n == 0x20 ||
  n == 0xA0 || n == 0x1680 || (0x2000 ≤ n && n ≤ 0x200A) || n == 0x2028 ||
  n == 0x2029 || n == 0x202F || n == 0x205F || n == 0x3000 || n == 0xFEFF

/-- The class `[a-zA-Z]`. -/
def isAsciiLetter (c : Char) : Bool :=
  let n := c.toNat
  (0x61 ≤ n && n ≤ 0x7A) || (0x41 ≤ n && n ≤ 0x5A)

/-- The class `\w`, that is `[A-Za-z0-9_]`. -/
def isWordChar (c : Char) : Bool :=
  let n := c.toNat
  isAsciiLetter c || (0x30 ≤ n && n ≤ 0x39) || n == 0x5F

/-- The characters that `.` does not match: the four line terminators. -/
def isLineTerminator (c : Char) : Bool :=
  let n := c.toNat
  n == 0x0A || n == 0x0D || n == 0x2028 || n == 0x2029

/-! ## Exceptions -/

/-- The exceptions of the model: a ReferenceError for a name without binding, a TypeError,
the rejection of an HTTP request, and an `Error` thrown by a library. -/
inductive JsError
  | referenceError (name : String)
  | typeError
  | rejected (message : String)
  | error (message : String)
  deriving DecidableEq, Repr

instance instDecidableEqExcept {α : Type} [DecidableEq α] : DecidableEq (Except JsError α) :=
  fun a b =>
    match a, b with
    | Except.ok x, Except.ok y =>
      if h : x = y then isTrue (by rw [h]) else isFalse (fun h2 => h (Except.ok.inj h2))
    | Except.error x, Except.error y =>
      if h : x = y then isTrue (by rw [h]) else isFalse (fun h2 => h (Except.error.inj h2))
    | Except.ok _, Except.error _ => isFalse (fun h => Except.noConfusion h)
    | Except.error _, Except.ok _ => isFalse (fun h => Except.noConfusion h)

/-! ## `String.prototype.replace` with a global regular expression -/

/-- What a regular expression does at one position: given the text from that position
on, the length of the match that starts there and the text that replaces it, or `none`
when there is no match at that position. -/
abbrev Matcher := List Char → Option (Nat × List Char)

/-- The scan of `replace` with a `g` regular expression whose matches are never empty.
`skip` counts the characters of the last match that are still to be consumed; with
`skip = 0` the matcher is tried at the current position: a match is replaced and the
scan resumes right after it, otherwise the character is kept and the scan moves on by
one. -/
def replaceAllAux (m : Matcher) : Nat → List Char → List Char
  | _, [] => []
  | skip + 1, _ :: rest => replaceAllAux m skip rest
  | 0, c :: rest =>
    match m (c :: rest) with
    | some (len, repl) => repl ++ replaceAllAux m (len - 1) rest
    | none => c :: replaceAllAux m 0 rest

/-- The method `s.replace(/re/g, f)`, for the regular expression and replacer described by `m`. -/
def replaceAll (m : Matcher) (s : List Char) : List Char :=
  replaceAllAux m 0 s

/-- The method `String.prototype.trim`. -/
def trim (s : List Char) : List Char :=
  ((s.dropWhile isJsSpace).reverse.dropWhile isJsSpace).reverse

/-! ## cleanHtml (index.js, lines 45-67) -/

/-- The regular expression `/<[^>]*>/` with the replacement `''`: a `<`, then everything up to
the first `>` after it.  Without a later `>` there is no match. -/
def tagMatch : Matcher
  | [] => none
  | c :: rest =>
    if c = '<' ∧ '>' ∈ rest then
      some ((rest.takeWhile (fun d => d != '>')).length + 2, [])
    else none

/-- The table `htmlEntities`. -/
def htmlEntities : List (List Char × List Char) :=
  [ ("&quot;".toList, ['"']),
    ("&amp;".toList, ['&']),
    ("&lt;".toList, ['<']),
    ("&gt;".toList, ['>']),
    ("&nbsp;".toList, [' ']),
    ("&apos;".toList, [Char.ofNat 39]),
    ("&cent;".toList, [Char.ofNat 0xA2]),
    ("&pound;".toList, [Char.ofNat 0xA3]),
    ("&yen;".toList, [Char.ofNat 0xA5]),
    ("&euro;".toList, [Char.ofNat 0x20AC]),
    ("&copy;".toList, [Char.ofNat 0xA9]),
    ("&reg;".toList, [Char.ofNat 0xAE]) ]

/-- The replacer `(match) => htmlEntities[match] || match`; every value of the table is a
non-empty string, so the right operand is taken exactly for the keys the table lacks. -/
def decodeEntity (lit : List Char) : List Char :=
  (htmlEntities.lookup lit).getD lit

/-- The regular expression `/&[a-zA-Z]+;/` with the replacer `decodeEntity`: `&`, the
longest run of letters (which must not be empty), then `;`.  A shorter run of letters
cannot be followed by `;`, so backtracking finds nothing more. -/
def entityMatch : Matcher
  | [] => none
  | c :: rest =>
    if c = '&' then
      match rest.takeWhile isAsciiLetter, rest.dropWhile isAsciiLetter with
      | l :: ls, d :: _ =>
        if d = ';' then
          some ((l :: ls).length + 2, decodeEntity ('&' :: (l :: ls) ++ [';']))
        else none
      | _, _ => none
    else none

/-- The regular expression `/\s+/` with the replacement `' '`: the longest run of whitespace. -/
def wsMatch : Matcher
  | [] => none
  | c :: rest =>
    if isJsSpace c then some ((rest.takeWhile isJsSpace).length + 1, [' ']) else none

/-- The first statement of `cleanHtml`: `rawHtml.replace(/<[^>]*>/g, '')`. -/
def stripTags (s : List Char) : List Char := replaceAll tagMatch s

/-- The second statement: `cleanText.replace(/&[a-zA-Z]+;/g, ...)`. -/
def decodeEntities (s : List Char) : List Char := replaceAll entityMatch s

/-- The first half of the third statement: `cleanText.replace(/\s+/g, ' ')`. -/
def collapseSpaces (s : List Char) : List Char := replaceAll wsMatch s

/-- The function `cleanHtml`: tags removed, entities decoded, whitespace collapsed, trimmed. -/
def cleanHtml (rawHtml : List Char) : List Char :=
  trim (collapseSpaces (decodeEntities (stripTags rawHtml)))

/-! ## applyChalk (index.js, lines 69-83) -/

/-- The style functions of `chalk` that the source uses.  Each maps a text to the styled text. -/
structure Chalk where
  bold : List Char → List Char
  green : List Char → List Char
  blue : List Char → List Char
  cyan : List Char → List Char
  gray : List Char → List Char
  yellow : List Char → List Char
  magenta : List Char → List Char
  red : List Char → List Char
  white : List Char → List Char

/-- The `switch (p1)` of the replacer of `applyChalk`. -/
def styleOf (chalk : Chalk) (p1 p2 : List Char) : List Char :=
  if p1 = "keyword".toList then chalk.blue p2
  else if p1 = "string".toList then chalk.green p2
  else if p1 = "built_in".toList then chalk.cyan p2
  else if p1 = "comment".toList then chalk.gray p2
  else if p1 = "title".toList then chalk.yellow p2
  else if p1 = "params".toList then chalk.magenta p2
  else if p1 = "function".toList then chalk.red p2
  else if p1 = "operator".toList then chalk.white p2
  else p2

/-- The text after the literal `lit` when `s` starts with `lit`. -/
def afterLiteral : List Char → List Char → Option (List Char)
  | [], s => some s
  | _ :: _, [] => none
  | a :: lit, c :: s => if a = c then afterLiteral lit s else none

/-- The lazy group `(.*?)` followed by the literal `close`: the shortest run of characters
other than line terminators after which `close` stands; the result is the group. -/
def lazyDotUntil (close : List Char) : List Char → Option (List Char)
  | [] => if close = [] then some [] else none
  | c :: rest =>
    if close.isPrefixOf (c :: rest) then some []
    else if isLineTerminator c then none
    else (lazyDotUntil close rest).map (fun p2 => c :: p2)

/-- The literal that opens the pattern of `applyChalk`. -/
def spanOpen : List Char := "<span class=\"hljs-".toList

/-- The literal that closes the pattern of `applyChalk`. -/
def spanClose : List Char := "</span>".toList

/-- The regular expression `/<span class="hljs-(\w+)">(.*?)<\/span>/` with the replacer of
`applyChalk`.  The group `(\w+)` is the longest run of word characters (a shorter one cannot
be followed by the double quote). -/
def spanMatch (chalk : Chalk) : Matcher := fun s =>
  match afterLiteral spanOpen s with
  | none => none
  | some afterOpen =>
    match afterOpen.takeWhile isWordChar,
        afterLiteral "\">".toList (afterOpen.dropWhile isWordChar) with
    | c :: p1, some body =>
      match lazyDotUntil spanClose body with
      | some p2 =>
        some (spanOpen.length + (c :: p1).length + 2 + p2.length + spanClose.length,
          styleOf chalk (c :: p1) p2)
      | none => none
    | _, _ => none

/-- The function `applyChalk`. -/
def applyChalk (chalk : Chalk) (highlighted : List Char) : List Char :=
  cleanHtml (replaceAll (spanMatch chalk) highlighted)

/-! ## formatResponse (index.js, lines 19-43) -/

/-- The two entry points of `highlight.js` that the source calls:
`hljs.highlight(line, \x7b language \x7d)` and `hljs.highlightAuto(line)`.  Each gives the
`.value` of its result, or the exception that the call throws (`hljs.highlight` throws an
`Error` for a language that is not registered). -/
structure Highlighter where
  highlight : List Char → List Char → Except JsError (List Char)
  highlightAuto : List Char → Except JsError (List Char)

/-- The method `text.split('\n')`. -/
def splitLines : List Char → List (List Char)
  | [] => [[]]
  | c :: rest =>
    if c = '\n' then [] :: splitLines rest
    else
      match splitLines rest with
      | [] => [[c]]
      | l :: ls => (c :: l) :: ls

/-- An index argument of `slice`, resolved against the length of the string. -/
def sliceIndex (len : Nat) (i : Int) : Nat :=
  if i < 0 then (len + i).toNat else min i.toNat len

/-- The method `s.slice(start, stop)`. -/
def slice (s : List Char) (start stop : Int) : List Char :=
  (s.take (sliceIndex s.length stop)).drop (sliceIndex s.length start)

/-- The method `s.slice(start)`. -/
def sliceFrom (s : List Char) (start : Int) : List Char :=
  s.drop (sliceIndex s.length start)

/-- The method `s.startsWith(lit)`. -/
def startsWith (s lit : List Char) : Bool := lit.isPrefixOf s

/-- The method `s.endsWith(lit)`. -/
def endsWith (s lit : List Char) : Bool := lit.isSuffixOf s

/-- The three-backtick fence marker. -/
def fence : List Char := "```".toList

/-- The local variables of `formatResponse`. -/
structure FormatState where
  formattedText : List Char
  inCodeBlock : Bool
  codeLang : List Char

/-- The rendering of a line of a code block: the highlighter for the recorded language, or
automatic detection when `codeLang` is the empty string, then `applyChalk`.  An exception
of the highlighter is not caught. -/
def renderCode (chalk : Chalk) (hl : Highlighter) (codeLang line : List Char) :
    Except JsError (List Char) :=
  match (if codeLang ≠ [] then hl.highlight line codeLang else hl.highlightAuto line) with
  | Except.ok highlighted => Except.ok (applyChalk chalk highlighted)
  | Except.error e => Except.error e

/-- The rendering of a line outside a code block (the last four branches of the callback). -/
def renderText (chalk : Chalk) (line : List Char) : List Char :=
  if startsWith line "# ".toList then chalk.bold line
  else if startsWith line "* ".toList then chalk.green "• ".toList ++ sliceFrom line 2
  else if startsWith line "**".toList && endsWith line "**".toList then
    chalk.bold (slice line 2 (-2))
  else line

/-- The callback of `lines.forEach`: the new values of the three variables, or the
exception that the highlighter throws on a line of a code block. -/
def formatLine (chalk : Chalk) (hl : Highlighter) (st : FormatState) (line : List Char) :
    Except JsError FormatState :=
  if startsWith line fence then
    let inCodeBlock := !st.inCodeBlock
    Except.ok (FormatState.mk st.formattedText inCodeBlock
      (if inCodeBlock then trim (sliceFrom line 3) else []))
  else if st.inCodeBlock then
    match renderCode chalk hl st.codeLang line with
    | Except.ok r =>
      Except.ok (FormatState.mk (st.formattedText ++ r ++ ['\n']) st.inCodeBlock st.codeLang)
    | Except.error e => Except.error e
  else
    Except.ok (FormatState.mk (st.formattedText ++ renderText chalk line ++ ['\n'])
      st.inCodeBlock st.codeLang)

/-- The state before the first line. -/
def initialState : FormatState := FormatState.mk [] false []

/-- The loop `lines.forEach(callback)` from a given state: an exception thrown by the
callback ends the loop and leaves `formatResponse`. -/
def formatFrom (chalk : Chalk) (hl : Highlighter) :
    FormatState → List (List Char) → Except JsError FormatState
  | st, [] => Except.ok st
  | st, line :: rest =>
    match formatLine chalk hl st line with
    | Except.ok next => formatFrom chalk hl next rest
    | Except.error e => Except.error e

/-- The state of `formatResponse` after the given lines, or the exception thrown on the way. -/
def formatLines (chalk : Chalk) (hl : Highlighter) (lines : List (List Char)) :
    Except JsError FormatState :=
  formatFrom chalk hl initialState lines

/-- The function `formatResponse`: the text it returns, or the exception it throws. -/
def formatResponse (chalk : Chalk) (hl : Highlighter) (text : List Char) :
    Except JsError (List Char) :=
  match formatLines chalk hl (splitLines text) with
  | Except.ok st => Except.ok st.formattedText
  | Except.error e => Except.error e

/-! ## Two instances of `Chalk` -/

/-- The record `chalk` at colour level 0 (no colour support): every style returns its text. -/
def plainChalk : Chalk :=
  Chalk.mk id id id id id id id id id

/-- The style is closed before every line break (`\n` or `\r\n`) and opened again after it. -/
def encaseNewlines (openSeq closeSeq : List Char) : List Char → List Char
  | [] => []
  | [c] => if c = '\n' then closeSeq ++ ['\n'] ++ openSeq else [c]
  | c :: d :: rest =>
    if c = '\n' then closeSeq ++ ['\n'] ++ openSeq ++ encaseNewlines openSeq closeSeq (d :: rest)
    else if c = '\r' ∧ d = '\n' then
      closeSeq ++ ['\r', '\n'] ++ openSeq ++ encaseNewlines openSeq closeSeq rest
    else c :: encaseNewlines openSeq closeSeq (d :: rest)

/-- An SGR wrapper: the empty text stays empty, any other text stands between the two
codes, which are repeated around every line break. -/
def sgr (openCode closeCode : String) (s : List Char) : List Char :=
  if s = [] then []
  else [Char.ofNat 27, '['] ++ openCode.toList ++ ['m'] ++
    encaseNewlines ([Char.ofNat 27, '['] ++ openCode.toList ++ ['m'])
      ([Char.ofNat 27, '['] ++ closeCode.toList ++ ['m']) s ++
    [Char.ofNat 27, '['] ++ closeCode.toList ++ ['m']

/-- The record `chalk` on a colour terminal, for texts without escape sequences. -/
def ansiChalk : Chalk :=
  Chalk.mk (sgr "1" "22") (sgr "32" "39") (sgr "34" "39") (sgr "36" "39") (sgr "90" "39")
    (sgr "33" "39") (sgr "35" "39") (sgr "31" "39") (sgr "37" "39")

/-- A highlighter that marks nothing up and knows every language. -/
def plainHighlighter : Highlighter :=
  Highlighter.mk (fun line _ => Except.ok line) (fun line => Except.ok line)

/-- A highlighter that marks nothing up and has the one registered language `js`: as
`hljs.highlight` does, it throws an `Error` for any other language. -/
def strictHighlighter : Highlighter :=
  Highlighter.mk
    (fun line lang =>
      if lang = "js".toList then Except.ok line
      else Except.error (JsError.error "Unknown language"))
    (fun line => Except.ok line)

/-! ## askQuestion and searchStackOverflow (index.js, lines 85-132) -/

/-- The two remote services.  `question` is `apiInstance.question(...)` followed by
`result.answers.iterable[0].text`; `get` is `axios.get(...)` with the links of
`response.data.items`, or `none` when the response has no list of items. -/
structure Backend where
  question : List Char → Except JsError (List Char)
  get : List Char → Except JsError (Option (List (List Char)))

/-- What the program does that can be observed from outside. -/
inductive Event
  | question (query : List Char)
  | get (query : List Char)
  | log (text : List Char)
  | error (label : String) (err : JsError)
  | usage
  | help
  | clear
  | prompt
  | close
  | interactive
  | exit (code : Nat)
  deriving DecidableEq

/-- The module-level bindings of `index.js`. -/
def moduleScope : List String :=
  ["Pieces", "os", "hljs", "chalk", "readline", "ora", "axios", "platform", "port",
   "configuration", "apiInstance", "formatResponse", "cleanHtml", "applyChalk",
   "askQuestion", "searchStackOverflow", "isInteractiveMode", "isHelp", "isVersion",
   "isModel", "interactiveMode", "displayHelp", "main"]

/-- The bindings visible in the `catch` block of `askQuestion` and of
`searchStackOverflow`: the catch parameter, the parameter of the function and the locals
declared directly in its body, then the module.  The `const spinner` of both functions is
declared inside the block of `if (!interactiveMode)` and is visible only there. -/
def catchScope (locals : List String) : List String :=
  ["error", "query"] ++ locals ++ moduleScope

/-- The resolution of an identifier: a name without binding raises a ReferenceError. -/
def resolve (scope : List String) (name : String) : Except JsError Unit :=
  if name ∈ scope then Except.ok () else Except.error (JsError.referenceError name)

/-- The function `askQuestion`.  The condition `!interactiveMode` tests the arrow
function of line 139, a truthy value, so neither spinner block runs.  The `catch` block
starts with `spinner.fail(...)`. -/
def askQuestion (backend : Backend) (query : List Char) :
    List Event × Except JsError (List Char) :=
  match backend.question query with
  | Except.ok text => ([Event.question query], Except.ok text)
  | Except.error e =>
    match resolve (catchScope ["params"]) "spinner" with
    | Except.error r => ([Event.question query], Except.error r)
    | Except.ok _ =>
      ([Event.question query, Event.error "Error calling API:" e], Except.error e)

/-- The function `searchStackOverflow`.  A response without a list of items makes
`response.data.items.map` raise a TypeError inside the `try`; the `catch` block starts
with `spinner.fail(...)`. -/
def searchStackOverflow (backend : Backend) (query : List Char) :
    List Event × Except JsError (List (List Char)) :=
  let attempt : Except JsError (List (List Char)) :=
    match backend.get query with
    | Except.ok (some links) => Except.ok links
    | Except.ok none => Except.error JsError.typeError
    | Except.error e => Except.error e
  match attempt with
  | Except.ok links => ([Event.get query], Except.ok links)
  | Except.error e =>
    match resolve (catchScope []) "spinner" with
    | Except.error r => ([Event.get query], Except.error r)
    | Except.ok _ =>
      ([Event.get query, Event.error "Error searching Stack Overflow:" e], Except.ok [])

/-! ## The shell (index.js, lines 134-270) -/

/-- The method `s.includes(lit)` on strings. -/
def includes (s lit : List Char) : Bool :=
  s.tails.any (fun t => lit.isPrefixOf t)

/-- The alternatives of the regular expression of the coding heuristic. -/
def codingTerms : List String :=
  ["code", "error", "exception", "bug", "issue", "problem", "function", "method", "class",
   "variable", "syntax", "compile", "runtime"]

/-- The test `/code|error|...|runtime/i.test(query)`.  Without the `u` flag a letter of
the pattern matches exactly its two ASCII cases. -/
def isCodingQuery (query : List Char) : Bool :=
  codingTerms.any (fun t => includes (query.map Char.toLower) t.toList)

/-- The code of both modes after the query is known: the `try` block of `main` (lines
250-266) and of the `default` case of the line handler (lines 175-191), with its `catch`.
An exception of `askQuestion`, of `formatResponse` or of `searchStackOverflow` leaves the
`try` block at that point and is reported by `console.error('Error calling API:', error)`. -/
def answerQuery (chalk : Chalk) (hl : Highlighter) (backend : Backend) (query : List Char) :
    List Event :=
  match askQuestion backend query with
  | (evs, Except.error e) => evs ++ [Event.error "Error calling API:" e]
  | (evs, Except.ok response) =>
    match formatResponse chalk hl response with
    | Except.error e => evs ++ [Event.error "Error calling API:" e]
    | Except.ok formatted =>
      evs ++ [Event.log formatted] ++
      if isCodingQuery query then
        match searchStackOverflow backend query with
        | (evs2, Except.error e) => evs2 ++ [Event.error "Error calling API:" e]
        | (evs2, Except.ok links) =>
          evs2 ++
          if links.length > 0 then
            Event.log (chalk.blue "\nRelevant Stack Overflow links:".toList) ::
              links.map (fun link => Event.log (chalk.blue link))
          else [Event.log (chalk.yellow "\nNo relevant Stack Overflow links found.".toList)]
      else []

/-- The flag test `process.argv.includes(a) || process.argv.includes(b)`. -/
def hasFlag (argv : List (List Char)) (a b : String) : Bool :=
  argv.contains a.toList || argv.contains b.toList

/-- The filter of line 241. -/
def keepArg (arg : List Char) : Bool :=
  arg != "-h".toList && arg != "--help".toList && arg != "-v".toList &&
  arg != "--version".toList && arg != "-i".toList && arg != "--interactive".toList &&
  !startsWith arg "/".toList

/-- The method `parts.join(" ")`. -/
def joinWithSpace : List (List Char) → List Char
  | [] => []
  | [a] => a
  | a :: b :: rest => a ++ ' ' :: joinWithSpace (b :: rest)

/-- The query of single-shot mode. -/
def queryOf (args : List (List Char)) : List Char :=
  joinWithSpace (args.filter keepArg)

/-- The function `main`, given `process.argv`; the events stop at `process.exit`. -/
def main (chalk : Chalk) (hl : Highlighter) (backend : Backend) (argv : List (List Char)) :
    List Event :=
  let args := argv.drop 2
  if hasFlag argv "-h" "--help" then [Event.help, Event.exit 0]
  else if hasFlag argv "-v" "--version" then
    [Event.log "pieces version: 1.0.0".toList, Event.exit 0]
  else if hasFlag argv "-i" "--interactive" then [Event.interactive]
  else if args.length = 0 then [Event.usage, Event.exit 1]
  else answerQuery chalk hl backend (queryOf args)

/-- The handler of one line of interactive mode.  The commands are compared after
`toLowerCase`; no character outside ASCII lower-cases to a letter of the four commands. -/
def onLine (chalk : Chalk) (hl : Highlighter) (backend : Backend) (line : List Char) :
    List Event :=
  let input := trim line
  let command := input.map Char.toLower
  if command = "exit".toList then [Event.close, Event.exit 0]
  else if command = "help".toList then
    [Event.log "Available commands: exit, help, version, clear, model".toList, Event.prompt]
  else if command = "version".toList then
    [Event.log "pieces-cli version: 1.0.0".toList, Event.prompt]
  else if command = "clear".toList then [Event.clear, Event.prompt]
  else answerQuery chalk hl backend input ++ [Event.prompt]

/-! ## Predicates of the statements -/

/-- A text in which whitespace occurs only as single, isolated ASCII spaces. -/
def SpaceNormal (t : List Char) : Prop :=
  (∀ c ∈ t, isJsSpace c = true → c = ' ') ∧
  List.Chain' (fun a b => ¬ (isJsSpace a = true ∧ isJsSpace b = true)) t

/-- A text without a tag-shaped substring (a match of `<[^>]*>`): no `<` is followed, anywhere
later in the text, by a `>`. -/
def NoTag (t : List Char) : Prop :=
  ∀ pre post, t = pre ++ '<' :: post → '>' ∉ post

/-- The angle brackets of a text, in order. -/
def angles (t : List Char) : List Char :=
  t.filter (fun c => c == '<' || c == '>')

/-- A text in which every entity-shaped substring `&name;` is one the table lacks, so that
the replacer gives it back unchanged. -/
def EntityFree (t : List Char) : Prop :=
  ∀ name, name ≠ [] → (∀ c ∈ name, isAsciiLetter c = true) →
    ('&' :: (name ++ [';'])) <:+: t →
    decodeEntity ('&' :: (name ++ [';'])) = '&' :: (name ++ [';'])

/-- The rendering of a line that is not a fence, in the state reached before it: the
second and the later branches of the callback. -/
def renderLine (chalk : Chalk) (hl : Highlighter) (st : FormatState) (line : List Char) :
    Except JsError (List Char) :=
  if st.inCodeBlock then renderCode chalk hl st.codeLang line
  else Except.ok (renderText chalk line)

/-- The renderings of the lines that are not fences, in input order, each computed in the
state that `formatLine` has reached before the line; or the exception of the first
highlighter call that throws. -/
def rendered (chalk : Chalk) (hl : Highlighter) :
    FormatState → List (List Char) → Except JsError (List (List Char))
  | _, [] => Except.ok []
  | st, line :: rest =>
    match formatLine chalk hl st line with
    | Except.error e => Except.error e
    | Except.ok next =>
      match rendered chalk hl next rest with
      | Except.error e => Except.error e
      | Except.ok rs =>
        if startsWith line fence then Except.ok rs
        else
          match renderLine chalk hl st line with
          | Except.ok r => Except.ok (r :: rs)
          | Except.error e => Except.error e

/-- The concatenation of the renderings, each followed by one newline. -/
def joinLines (rs : List (List Char)) : List Char :=
  (rs.map (fun r => r ++ ['\n'])).flatten

/-- A highlighter none of whose calls throws. -/
def Highlighter.Returns (hl : Highlighter) : Prop :=
  (∀ line lang, ∃ v, hl.highlight line lang = Except.ok v) ∧
  (∀ line, ∃ v, hl.highlightAuto line = Except.ok v)

/-- The styles used outside code blocks add no newline: `bold` to a text without newline,
`green` to the bullet. -/
def Chalk.NewlineFree (chalk : Chalk) : Prop :=
  (∀ t, '\n' ∉ t → '\n' ∉ chalk.bold t) ∧ '\n' ∉ chalk.green "• ".toList

/-- A text without markup: none of `<`, `>`, `&`, and no whitespace. -/
def Clean (t : List Char) : Prop :=
  ∀ c ∈ t, c ≠ '<' ∧ c ≠ '>' ∧ c ≠ '&' ∧ isJsSpace c = false

instance (t : List Char) : Decidable (Clean t) := by
  unfold Clean
  infer_instance

/-- The eight colours of the table add no markup to a text without markup (they wrap it in
escape sequences, or return it unchanged when colours are off). -/
def Chalk.Safe (chalk : Chalk) : Prop :=
  ∀ t, Clean t →
    Clean (chalk.blue t) ∧ Clean (chalk.green t) ∧ Clean (chalk.cyan t) ∧
    Clean (chalk.gray t) ∧ Clean (chalk.yellow t) ∧ Clean (chalk.magenta t) ∧
    Clean (chalk.red t) ∧ Clean (chalk.white t)

/-- The markup `<span class="hljs-C">TEXT</span>`. -/
def spanOf (category text : List Char) : List Char :=
  spanOpen ++ category ++ "\">".toList ++ text ++ spanClose

/-- A backend whose two services answer: the text `ok` and one link. -/
def answeringBackend : Backend :=
  Backend.mk (fun _ => Except.ok "ok".toList)
    (fun _ => Except.ok (some ["https://stackoverflow.com/q/1".toList]))

/-- A backend whose search request is rejected. -/
def offlineSearchBackend : Backend :=
  Backend.mk (fun _ => Except.ok "ok".toList)
    (fun _ => Except.error (JsError.rejected "Network Error"))

/-! ## The scan -/

theorem replaceAllAux_skip (m : Matcher) (k : Nat) (s : List Char) :
    replaceAllAux m k s = replaceAllAux m 0 (s.drop k) := by
  induction s generalizing k with
  | nil => simp [replaceAllAux]
  | cons c rest ih =>
    cases k with
    | zero => simp
    | succ k => simp [replaceAllAux, ih k]

theorem replaceAll_nil (m : Matcher) : replaceAll m [] = [] := by
  simp [replaceAll, replaceAllAux]

theorem replaceAll_cons_none (m : Matcher) (c : Char) (rest : List Char)
    (h : m (c :: rest) = none) :
    replaceAll m (c :: rest) = c :: replaceAll m rest := by
  simp [replaceAll, replaceAllAux, h]

theorem replaceAll_cons_some (m : Matcher) (c : Char) (rest : List Char) (len : Nat)
    (repl : List Char) (h : m (c :: rest) = some (len, repl)) :
    replaceAll m (c :: rest) = repl ++ replaceAll m (rest.drop (len - 1)) := by
  simp only [replaceAll, replaceAllAux, h]
  rw [replaceAllAux_skip]

/-- Induction along the scan of `replaceAll`. -/
theorem replaceAll_induction (m : Matcher) (P : List Char → List Char → Prop)
    (hnil : P [] [])
    (hkeep : ∀ c rest, m (c :: rest) = none → P rest (replaceAll m rest) →
      P (c :: rest) (c :: replaceAll m rest))
    (hrepl : ∀ c rest len repl, m (c :: rest) = some (len, repl) →
      P (rest.drop (len - 1)) (replaceAll m (rest.drop (len - 1))) →
      P (c :: rest) (repl ++ replaceAll m (rest.drop (len - 1)))) :
    ∀ s, P s (replaceAll m s) := by
  suffices h : ∀ n (s : List Char), s.length ≤ n → P s (replaceAll m s) from
    fun s => h s.length s (Nat.le_refl _)
  intro n
  induction n with
  | zero =>
    intro s hs
    have : s = [] := List.length_eq_zero.mp (Nat.le_zero.mp hs)
    subst this
    rw [replaceAll_nil]; exact hnil
  | succ n ih =>
    intro s hs
    cases s with
    | nil => rw [replaceAll_nil]; exact hnil
    | cons c rest =>
      have hr : rest.length ≤ n := by simpa using hs
      cases hm : m (c :: rest) with
      | none =>
        rw [replaceAll_cons_none m c rest hm]
        exact hkeep c rest hm (ih rest hr)
      | some p =>
        obtain ⟨len, repl⟩ := p
        rw [replaceAll_cons_some m c rest len repl hm]
        refine hrepl c rest len repl hm (ih _ ?_)
        simp only [List.length_drop]
        omega

/-! ## Whitespace -/

theorem drop_length_takeWhile (p : Char → Bool) (l : List Char) :
    l.drop (l.takeWhile p).length = l.dropWhile p := by
  induction l with
  | nil => rfl
  | cons a l ih => by_cases h : p a <;> simp [List.takeWhile_cons, List.dropWhile_cons, h, ih]

theorem collapseSpaces_nil : collapseSpaces [] = [] := replaceAll_nil _

theorem collapseSpaces_space (c : Char) (rest : List Char) (h : isJsSpace c = true) :
    collapseSpaces (c :: rest) = ' ' :: collapseSpaces (rest.dropWhile isJsSpace) := by
  have hm : wsMatch (c :: rest) = some ((rest.takeWhile isJsSpace).length + 1, [' ']) := by
    simp [wsMatch, h]
  unfold collapseSpaces
  rw [replaceAll_cons_some _ _ _ _ _ hm]
  simp [drop_length_takeWhile]

theorem collapseSpaces_other (c : Char) (rest : List Char) (h : isJsSpace c = false) :
    collapseSpaces (c :: rest) = c :: collapseSpaces rest := by
  have hm : wsMatch (c :: rest) = none := by simp [wsMatch, h]
  unfold collapseSpaces
  rw [replaceAll_cons_none _ _ _ hm]

/-- Induction along the scan of `collapseSpaces`. -/
theorem collapseSpaces_induction (P : List Char → List Char → Prop) (hnil : P [] [])
    (hother : ∀ c rest, isJsSpace c = false → P rest (collapseSpaces rest) →
      P (c :: rest) (c :: collapseSpaces rest))
    (hspace : ∀ c rest, isJsSpace c = true →
      P (rest.dropWhile isJsSpace) (collapseSpaces (rest.dropWhile isJsSpace)) →
      P (c :: rest) (' ' :: collapseSpaces (rest.dropWhile isJsSpace))) :
    ∀ s, P s (collapseSpaces s) := by
  suffices h : ∀ n (s : List Char), s.length ≤ n → P s (collapseSpaces s) from
    fun s => h s.length s (Nat.le_refl _)
  intro n
  induction n with
  | zero =>
    intro s hs
    have : s = [] := List.length_eq_zero.mp (Nat.le_zero.mp hs)
    subst this
    rw [collapseSpaces_nil]; exact hnil
  | succ n ih =>
    intro s hs
    cases s with
    | nil => rw [collapseSpaces_nil]; exact hnil
    | cons c rest =>
      have hr : rest.length ≤ n := by simpa using hs
      cases hc : isJsSpace c with
      | false =>
        rw [collapseSpaces_other c rest hc]
        exact hother c rest hc (ih rest hr)
      | true =>
        rw [collapseSpaces_space c rest hc]
        refine hspace c rest hc (ih _ ?_)
        exact Nat.le_trans (List.dropWhile_suffix _).length_le hr

theorem isJsSpace_space : isJsSpace ' ' = true := by decide

theorem head_dropWhile_isJsSpace (l : List Char) (c : Char)
    (h : (l.dropWhile isJsSpace).head? = some c) : isJsSpace c = false := by
  induction l with
  | nil => simp at h
  | cons a l ih =>
    by_cases ha : isJsSpace a = true
    · rw [List.dropWhile_cons_of_pos ha] at h; exact ih h
    · rw [List.dropWhile_cons_of_neg ha] at h
      simp at h; subst h; simpa using ha

theorem collapseSpaces_head (s : List Char) :
    ∀ c, (collapseSpaces s).head? = some c → isJsSpace c = true →
      ∃ d, s.head? = some d ∧ isJsSpace d = true := by
  cases s with
  | nil => simp [collapseSpaces_nil]
  | cons a rest =>
    intro c hc hws
    cases ha : isJsSpace a with
    | true => exact ⟨a, rfl, ha⟩
    | false =>
      rw [collapseSpaces_other a rest ha] at hc
      simp at hc; subst hc; rw [ha] at hws; cases hws

theorem collapseSpaces_normal (s : List Char) : SpaceNormal (collapseSpaces s) := by
  refine collapseSpaces_induction (fun _ out => SpaceNormal out) ?_ ?_ ?_ s
  · exact ⟨by simp, List.chain'_nil⟩
  · intro c rest hc ih
    refine ⟨?_, ?_⟩
    · intro d hd hws
      rcases List.mem_cons.mp hd with rfl | hd
      · rw [hc] at hws; cases hws
      · exact ih.1 d hd hws
    · rw [List.chain'_cons']
      refine ⟨?_, ih.2⟩
      intro b _ hab
      rw [hc] at hab; exact Bool.noConfusion hab.1
  · intro c rest _ ih
    refine ⟨?_, ?_⟩
    · intro d hd hws
      rcases List.mem_cons.mp hd with rfl | hd
      · rfl
      · exact ih.1 d hd hws
    · rw [List.chain'_cons']
      refine ⟨?_, ih.2⟩
      intro b hb hab
      obtain ⟨d, hd, hdws⟩ := collapseSpaces_head _ b (by simpa using hb) hab.2
      rw [head_dropWhile_isJsSpace rest d hd] at hdws
      cases hdws

theorem trim_eq (s : List Char) : trim s = (s.dropWhile isJsSpace).rdropWhile isJsSpace := rfl

theorem trim_within (s : List Char) : trim s <:+: s := by
  rw [trim_eq]
  exact (List.rdropWhile_prefix _ _).isInfix.trans (List.dropWhile_suffix _).isInfix

theorem spaceNormal_within {t u : List Char} (h : SpaceNormal u) (ht : t <:+: u) :
    SpaceNormal t := by
  obtain ⟨a, b, hab⟩ := ht
  refine ⟨fun c hc => h.1 c (by rw [← hab]; simp [hc]), ?_⟩
  have h2 := h.2
  rw [← hab] at h2
  exact h2.left_of_append.right_of_append

theorem trim_head (s : List Char) (c : Char) (h : (trim s).head? = some c) :
    isJsSpace c = false := by
  rw [trim_eq] at h
  apply head_dropWhile_isJsSpace s c
  obtain ⟨v, hv⟩ := List.rdropWhile_prefix isJsSpace (s.dropWhile isJsSpace)
  rw [← hv]
  cases hr : (s.dropWhile isJsSpace).rdropWhile isJsSpace with
  | nil => rw [hr] at h; simp at h
  | cons a w => rw [hr] at h; simpa using h

theorem trim_getLast (s : List Char) (c : Char) (h : (trim s).getLast? = some c) :
    isJsSpace c = false := by
  rw [trim_eq] at h
  have hne : (s.dropWhile isJsSpace).rdropWhile isJsSpace ≠ [] := by
    intro h0; rw [h0] at h; simp at h
  have := List.rdropWhile_last_not isJsSpace (s.dropWhile isJsSpace) hne
  rw [List.getLast?_eq_getLast _ hne] at h
  simp at h
  rw [h] at this
  simpa using this

/-- C10: `cleanHtml(s)` has no whitespace at either end, no two adjacent whitespace
characters, and every whitespace character in it is the ASCII space; the two examples of
the claim, where the whitespace only appears after tag removal or entity decoding, both
yield `a b`. -/
theorem cleanHtml_whitespace_normal (s : List Char) :
    (∀ c, (cleanHtml s).head? = some c → isJsSpace c = false) ∧
    (∀ c, (cleanHtml s).getLast? = some c → isJsSpace c = false) ∧
    (∀ i (h : i + 1 < (cleanHtml s).length),
      ¬ (isJsSpace ((cleanHtml s).get ⟨i, Nat.lt_of_succ_lt h⟩) = true ∧
         isJsSpace ((cleanHtml s).get ⟨i + 1, h⟩) = true)) ∧
    (∀ c ∈ cleanHtml s, isJsSpace c = true → c = ' ') ∧
    cleanHtml "a <b> </b> b".toList = "a b".toList ∧
    cleanHtml "a&nbsp; b".toList = "a b".toList := by
  have hn : SpaceNormal (cleanHtml s) :=
    spaceNormal_within (collapseSpaces_normal _) (trim_within _)
  refine ⟨trim_head _, trim_getLast _, ?_, hn.1, by decide, by decide⟩
  intro i h
  exact List.chain'_iff_get.mp hn.2 i (by omega)

/-! ## Tags -/

theorem noTag_nil : NoTag [] := by
  intro pre post h
  cases pre <;> simp at h

theorem noTag_cons (c : Char) (t : List Char) :
    NoTag (c :: t) ↔ (c = '<' → '>' ∉ t) ∧ NoTag t := by
  constructor
  · intro h
    refine ⟨?_, ?_⟩
    · intro hc
      exact h [] t (by simp [hc])
    · intro pre post hp
      exact h (c :: pre) post (by simp [hp])
  · rintro ⟨h1, h2⟩ pre post hp
    cases pre with
    | nil =>
      simp at hp
      obtain ⟨rfl, rfl⟩ := hp
      exact h1 rfl
    | cons a pre =>
      simp at hp
      exact h2 pre post hp.2

theorem noTag_within {t u : List Char} (h : NoTag u) (ht : t <:+: u) : NoTag t := by
  obtain ⟨a, b, hab⟩ := ht
  intro pre post hp
  have := h (a ++ pre) (post ++ b) (by rw [← hab, hp]; simp)
  intro hmem
  exact this (List.mem_append_left _ hmem)

theorem mem_angles_gt (t : List Char) : '>' ∈ angles t ↔ '>' ∈ t := by
  simp [angles, List.mem_filter]

theorem noTag_angles (t : List Char) : NoTag (angles t) ↔ NoTag t := by
  induction t with
  | nil => simp [angles]
  | cons c t ih =>
    by_cases h1 : c = '<'
    · subst h1
      have : angles ('<' :: t) = '<' :: angles t := by simp [angles]
      rw [this, noTag_cons, noTag_cons, ih, mem_angles_gt]
    · by_cases h2 : c = '>'
      · subst h2
        have : angles ('>' :: t) = '>' :: angles t := by simp [angles]
        rw [this, noTag_cons, noTag_cons, ih]
        simp
      · have : angles (c :: t) = angles t := by simp [angles, h1, h2]
        rw [this, noTag_cons, ih]
        simp [h1]

theorem tagMatch_cons (c : Char) (rest : List Char) :
    tagMatch (c :: rest) = if c = '<' ∧ '>' ∈ rest then
      some ((rest.takeWhile (fun d => d != '>')).length + 2, []) else none := rfl

theorem tagMatch_some {c : Char} {rest : List Char} {len : Nat} {repl : List Char}
    (h : tagMatch (c :: rest) = some (len, repl)) :
    c = '<' ∧ '>' ∈ rest ∧ repl = [] := by
  rw [tagMatch_cons] at h
  by_cases hc : c = '<' ∧ '>' ∈ rest
  · rw [if_pos hc] at h
    simp at h
    exact ⟨hc.1, hc.2, h.2⟩
  · rw [if_neg hc] at h; cases h

theorem tagMatch_none {c : Char} {rest : List Char} (h : tagMatch (c :: rest) = none) :
    ¬ (c = '<' ∧ '>' ∈ rest) := by
  rw [tagMatch_cons] at h
  intro hc
  rw [if_pos hc] at h; cases h

theorem stripTags_spec (s : List Char) :
    NoTag (stripTags s) ∧ ∀ c ∈ stripTags s, c ∈ s := by
  refine replaceAll_induction tagMatch (fun s out => NoTag out ∧ ∀ c ∈ out, c ∈ s)
    ⟨noTag_nil, by simp⟩ ?_ ?_ s
  · intro c rest hm ih
    refine ⟨?_, ?_⟩
    · rw [noTag_cons]
      refine ⟨?_, ih.1⟩
      intro hc hmem
      exact tagMatch_none hm ⟨hc, ih.2 _ hmem⟩
    · intro d hd
      rcases List.mem_cons.mp hd with rfl | hd
      · exact List.mem_cons_self _ _
      · exact List.mem_cons_of_mem _ (ih.2 d hd)
  · intro c rest len repl hm ih
    obtain ⟨_, _, rfl⟩ := tagMatch_some hm
    refine ⟨by simpa using ih.1, ?_⟩
    intro d hd
    exact List.mem_cons_of_mem _ (List.mem_of_mem_drop (ih.2 d (by simpa using hd)))

theorem stripTags_of_noTag (s : List Char) (h : NoTag s) : stripTags s = s := by
  refine replaceAll_induction tagMatch (fun s out => NoTag s → out = s)
    (fun _ => rfl) ?_ ?_ s h
  · intro c rest _ ih hn
    rw [ih ((noTag_cons c rest).mp hn).2]
  · intro c rest len repl hm _ hn
    obtain ⟨hc, hmem, _⟩ := tagMatch_some hm
    exact absurd hmem (((noTag_cons c rest).mp hn).1 hc)

theorem angles_append (a b : List Char) : angles (a ++ b) = angles a ++ angles b := by
  simp [angles]

theorem angles_eq_nil_of_space (l : List Char) (h : ∀ c ∈ l, isJsSpace c = true) :
    angles l = [] := by
  simp only [angles, List.filter_eq_nil_iff]
  intro c hc hang
  have hs := h c hc
  simp at hang
  rcases hang with rfl | rfl
  · exact absurd hs (by decide)
  · exact absurd hs (by decide)

theorem angles_collapseSpaces (s : List Char) : angles (collapseSpaces s) = angles s := by
  refine collapseSpaces_induction (fun s out => angles out = angles s) rfl ?_ ?_ s
  · intro c rest _ ih
    rw [← List.singleton_append, angles_append, ih, ← angles_append]
    rfl
  · intro c rest hc ih
    have h1 : angles (' ' :: collapseSpaces (rest.dropWhile isJsSpace))
        = angles (rest.dropWhile isJsSpace) := by
      rw [← List.singleton_append, angles_append, ih]
      rfl
    have h2 : angles (c :: rest) = angles (rest.dropWhile isJsSpace) := by
      have hsplit : c :: rest = (c :: rest.takeWhile isJsSpace) ++ rest.dropWhile isJsSpace := by
        simp
      rw [hsplit, angles_append, angles_eq_nil_of_space]
      · rfl
      · intro d hd
        rcases List.mem_cons.mp hd with rfl | hd
        · exact hc
        · exact List.mem_takeWhile_imp hd
    rw [h1, h2]

/-! ## Entities -/

theorem entityMatch_cons (c : Char) (rest : List Char) :
    entityMatch (c :: rest) =
      if c = '&' then
        match rest.takeWhile isAsciiLetter, rest.dropWhile isAsciiLetter with
        | l :: ls, d :: _ =>
          if d = ';' then
            some ((l :: ls).length + 2, decodeEntity ('&' :: (l :: ls) ++ [';']))
          else none
        | _, _ => none
      else none := rfl

/-- The literal `&name;`. -/
theorem entityMatch_some {s : List Char} {len : Nat} {repl : List Char}
    (h : entityMatch s = some (len, repl)) :
    ∃ name tail, s = '&' :: (name ++ ';' :: tail) ∧ name ≠ [] ∧
      (∀ c ∈ name, isAsciiLetter c = true) ∧ len = name.length + 2 ∧
      repl = decodeEntity ('&' :: (name ++ [';'])) := by
  cases s with
  | nil => cases h
  | cons c rest =>
    rw [entityMatch_cons] at h
    by_cases hc : c = '&'
    · rw [if_pos hc] at h
      have hsplit := List.takeWhile_append_dropWhile isAsciiLetter rest
      have hall : ∀ c ∈ rest.takeWhile isAsciiLetter, isAsciiLetter c = true :=
        fun c hc => List.mem_takeWhile_imp hc
      generalize rest.takeWhile isAsciiLetter = name at h hsplit hall
      generalize rest.dropWhile isAsciiLetter = after at h hsplit
      cases name with
      | nil => cases h
      | cons l ls =>
        cases after with
        | nil => cases h
        | cons d tail =>
          by_cases hd : d = ';'
          · simp only [hd, if_true, Option.some.injEq, Prod.mk.injEq] at h
            refine ⟨l :: ls, tail, ?_, by simp, hall, h.1.symm, h.2.symm⟩
            rw [hc, ← hsplit, hd]
          · simp only [hd, if_false] at h
            cases h
    · rw [if_neg hc] at h; cases h

theorem isAsciiLetter_semicolon : isAsciiLetter ';' = false := by decide

theorem entityMatch_literal (name tail : List Char) (hne : name ≠ [])
    (hall : ∀ c ∈ name, isAsciiLetter c = true) :
    entityMatch ('&' :: (name ++ ';' :: tail)) =
      some (name.length + 2, decodeEntity ('&' :: (name ++ [';']))) := by
  have h1 : (name ++ ';' :: tail).takeWhile isAsciiLetter = name := by
    rw [List.takeWhile_append_of_pos hall]
    simp [List.takeWhile_cons, isAsciiLetter_semicolon]
  have h2 : (name ++ ';' :: tail).dropWhile isAsciiLetter = ';' :: tail := by
    rw [List.dropWhile_append_of_pos hall]
    simp [List.dropWhile_cons, isAsciiLetter_semicolon]
  rw [entityMatch_cons, if_pos rfl, h1, h2]
  cases name with
  | nil => exact absurd rfl hne
  | cons l ls => simp

theorem decodeEntities_nil : decodeEntities [] = [] := replaceAll_nil _

theorem decodeEntities_keep (c : Char) (rest : List Char)
    (h : entityMatch (c :: rest) = none) :
    decodeEntities (c :: rest) = c :: decodeEntities rest :=
  replaceAll_cons_none _ _ _ h

theorem decodeEntities_literal (name tail : List Char) (hne : name ≠ [])
    (hall : ∀ c ∈ name, isAsciiLetter c = true) :
    decodeEntities ('&' :: (name ++ ';' :: tail)) =
      decodeEntity ('&' :: (name ++ [';'])) ++ decodeEntities tail := by
  unfold decodeEntities
  rw [replaceAll_cons_some _ _ _ _ _ (entityMatch_literal name tail hne hall)]
  congr 2
  have : name.length + 2 - 1 = name.length + 1 := by omega
  rw [this, List.drop_append_eq_append_drop]
  simp

/-- Induction along the scan of `decodeEntities`. -/
theorem decodeEntities_induction (P : List Char → List Char → Prop) (hnil : P [] [])
    (hkeep : ∀ c rest, entityMatch (c :: rest) = none → P rest (decodeEntities rest) →
      P (c :: rest) (c :: decodeEntities rest))
    (hent : ∀ name tail, name ≠ [] → (∀ c ∈ name, isAsciiLetter c = true) →
      P tail (decodeEntities tail) →
      P ('&' :: (name ++ ';' :: tail))
        (decodeEntity ('&' :: (name ++ [';'])) ++ decodeEntities tail)) :
    ∀ s, P s (decodeEntities s) := by
  suffices h : ∀ n (s : List Char), s.length ≤ n → P s (decodeEntities s) from
    fun s => h s.length s (Nat.le_refl _)
  intro n
  induction n with
  | zero =>
    intro s hs
    have : s = [] := List.length_eq_zero.mp (Nat.le_zero.mp hs)
    subst this
    rw [decodeEntities_nil]; exact hnil
  | succ n ih =>
    intro s hs
    cases s with
    | nil => rw [decodeEntities_nil]; exact hnil
    | cons c rest =>
      have hr : rest.length ≤ n := by simpa using hs
      cases hm : entityMatch (c :: rest) with
      | none =>
        rw [decodeEntities_keep c rest hm]
        exact hkeep c rest hm (ih rest hr)
      | some p =>
        obtain ⟨len, repl⟩ := p
        obtain ⟨name, tail, hs', hne, hall, _, _⟩ := entityMatch_some hm
        rw [hs', decodeEntities_literal name tail hne hall]
        refine hent name tail hne hall (ih tail ?_)
        have hl := congrArg List.length hs'
        simp at hl
        omega

theorem mem_of_lookup {l : List (List Char × List Char)} {k v : List Char}
    (h : l.lookup k = some v) : (k, v) ∈ l := by
  induction l with
  | nil => simp [List.lookup] at h
  | cons p l ih =>
    obtain ⟨a, b⟩ := p
    by_cases hk : k = a
    · subst hk
      simp [List.lookup] at h
      simp [h]
    · have hb : (k == a) = false := by simpa using hk
      simp only [List.lookup, hb] at h
      exact List.mem_cons_of_mem _ (ih h)

theorem decodeEntity_cases (lit : List Char) :
    decodeEntity lit = lit ∨ (lit, decodeEntity lit) ∈ htmlEntities := by
  unfold decodeEntity
  cases h : htmlEntities.lookup lit with
  | none => left; rfl
  | some v => right; exact mem_of_lookup h

theorem decodeEntity_value (lit : List Char) :
    decodeEntity lit = lit ∨
    ∃ v, decodeEntity lit = [v] ∧ isAsciiLetter v = false ∧ v ≠ ';' ∧ isJsSpace v = (v == ' ') ∧
      (v = '&' → lit = "&amp;".toList) ∧ (v = '<' → lit = "&lt;".toList) ∧
      (v = '>' → lit = "&gt;".toList) := by
  rcases decodeEntity_cases lit with h | h
  · exact Or.inl h
  · right
    generalize decodeEntity lit = r at h
    simp [htmlEntities] at h
    rcases h with h | h | h | h | h | h | h | h | h | h | h | h <;>
    · obtain ⟨rfl, rfl⟩ := h
      exact ⟨_, rfl, by decide, by decide, by decide, by decide, by decide, by decide⟩

theorem angles_literal (name : List Char) (hall : ∀ c ∈ name, isAsciiLetter c = true) :
    angles ('&' :: (name ++ [';'])) = [] := by
  simp only [angles, List.filter_eq_nil_iff]
  intro c hc hang
  simp at hang
  simp at hc
  rcases hc with rfl | hc | rfl
  · revert hang; decide
  · have := hall c hc
    rcases hang with rfl | rfl
    · exact absurd this (by decide)
    · exact absurd this (by decide)
  · revert hang; decide

theorem literal_append (name tail : List Char) :
    '&' :: (name ++ ';' :: tail) = ('&' :: (name ++ [';'])) ++ tail := by simp

theorem angles_decodeEntities (x : List Char) (hlt : ¬ "&lt;".toList <:+: x)
    (hgt : ¬ "&gt;".toList <:+: x) : angles (decodeEntities x) = angles x := by
  refine decodeEntities_induction
    (fun s out => ¬ "&lt;".toList <:+: s → ¬ "&gt;".toList <:+: s → angles out = angles s)
    (fun _ _ => rfl) ?_ ?_ x hlt hgt
  · intro c rest _ ih h1 h2
    have := ih (fun h => h1 (List.infix_cons h)) (fun h => h2 (List.infix_cons h))
    rw [← List.singleton_append, angles_append, this, ← angles_append]
    rfl
  · intro name tail _ hall ih h1 h2
    have hpre : ('&' :: (name ++ [';'])) <+: '&' :: (name ++ ';' :: tail) :=
      ⟨tail, (literal_append name tail).symm⟩
    have hsuf : tail <:+ '&' :: (name ++ ';' :: tail) :=
      ⟨'&' :: (name ++ [';']), (literal_append name tail).symm⟩
    have iht := ih (fun h => h1 (h.trans hsuf.isInfix)) (fun h => h2 (h.trans hsuf.isInfix))
    rw [angles_append, iht, literal_append name tail, angles_append, angles_literal name hall]
    congr 1
    rcases decodeEntity_value ('&' :: (name ++ [';'])) with h | ⟨v, hv, _, _, _, _, hl, hg⟩
    · rw [h, angles_literal name hall]
    · rw [hv]
      have hvl : v ≠ '<' := fun h => h1 (hl h ▸ hpre.isInfix)
      have hvg : v ≠ '>' := fun h => h2 (hg h ▸ hpre.isInfix)
      simp [angles, hvl, hvg]

/-- C2, as amended: when the text left by tag removal contains neither of the entity
literals `&lt;` and `&gt;`, `cleanHtml(s)` has no `<` that is followed later by a `>`. -/
theorem cleanHtml_noTag (s : List Char) (hlt : ¬ "&lt;".toList <:+: stripTags s)
    (hgt : ¬ "&gt;".toList <:+: stripTags s) : NoTag (cleanHtml s) := by
  have h1 : NoTag (stripTags s) := (stripTags_spec s).1
  have h2 : NoTag (decodeEntities (stripTags s)) := by
    rw [← noTag_angles, angles_decodeEntities _ hlt hgt, noTag_angles]; exact h1
  have h3 : NoTag (collapseSpaces (decodeEntities (stripTags s))) := by
    rw [← noTag_angles, angles_collapseSpaces, noTag_angles]; exact h2
  exact noTag_within h3 (trim_within _)

/-- C2 fails as stated: `cleanHtml` decodes entities after it has removed the tags, so
`&lt;b&gt;` comes out as the tag `<b>`. -/
theorem cleanHtml_tag_from_entities :
    cleanHtml "&lt;b&gt;".toList = "<b>".toList ∧ ¬ NoTag (cleanHtml "&lt;b&gt;".toList) := by
  have h : cleanHtml "&lt;b&gt;".toList = "<b>".toList := by decide
  refine ⟨h, ?_⟩
  rw [h]
  intro hn
  exact hn [] ['b', '>'] rfl (by decide)

/-- The amended C2 at an input with tags, entities and a lone `<`. -/
theorem cleanHtml_noTag_witness :
    ¬ "&lt;".toList <:+: stripTags "a <b>x</b> &amp; 1 < 2 &nbsp;".toList ∧
    ¬ "&gt;".toList <:+: stripTags "a <b>x</b> &amp; 1 < 2 &nbsp;".toList ∧
    cleanHtml "a <b>x</b> &amp; 1 < 2 &nbsp;".toList = "a x & 1 < 2".toList ∧
    NoTag (cleanHtml "a <b>x</b> &amp; 1 < 2 &nbsp;".toList) :=
  ⟨by decide, by decide, by decide, cleanHtml_noTag _ (by decide) (by decide)⟩

/-! ## Fixed points of the three passes -/

theorem entityFree_within {t u : List Char} (h : EntityFree u) (ht : t <:+: u) :
    EntityFree t :=
  fun name hne hall hin => h name hne hall (hin.trans ht)

theorem decodeEntities_of_entityFree (s : List Char) (h : EntityFree s) :
    decodeEntities s = s := by
  refine decodeEntities_induction (fun s out => EntityFree s → out = s) (fun _ => rfl) ?_ ?_ s h
  · intro c rest _ ih hf
    rw [ih (entityFree_within hf (List.suffix_cons c rest).isInfix)]
  · intro name tail hne hall ih hf
    have hpre : ('&' :: (name ++ [';'])) <+: '&' :: (name ++ ';' :: tail) :=
      ⟨tail, (literal_append name tail).symm⟩
    have hsuf : tail <:+ '&' :: (name ++ ';' :: tail) :=
      ⟨'&' :: (name ++ [';']), (literal_append name tail).symm⟩
    rw [hf name hne hall hpre.isInfix, ih (entityFree_within hf hsuf.isInfix)]
    exact (literal_append name tail).symm

/-- An occurrence that starts with `&` does not start inside a stretch without `&`. -/
theorem occurrence_skip (w pre tail : List Char) (hpre : '&' ∉ pre)
    (h : ('&' :: w) <:+: pre ++ tail) : ('&' :: w) <:+: tail := by
  induction pre with
  | nil => simpa using h
  | cons p pre ih =>
    rw [List.cons_append, List.infix_cons_iff] at h
    rcases h with h | h
    · rw [List.cons_prefix_cons] at h
      exact absurd (h.1 ▸ List.mem_cons_self _ _) hpre
    · exact ih (fun hm => hpre (List.mem_cons_of_mem _ hm)) h

theorem name_eq_of_starts (name name0 tail : List Char)
    (hall : ∀ c ∈ name, isAsciiLetter c = true) (hall0 : ∀ c ∈ name0, isAsciiLetter c = true)
    (h : name ++ [';'] <+: name0 ++ ';' :: tail) : name = name0 := by
  induction name generalizing name0 with
  | nil =>
    cases name0 with
    | nil => rfl
    | cons b n0 =>
      simp only [List.nil_append, List.cons_append, List.cons_prefix_cons] at h
      have := hall0 b (List.mem_cons_self _ _)
      rw [← h.1] at this
      exact absurd this (by decide)
  | cons a n ih =>
    cases name0 with
    | nil =>
      simp only [List.nil_append, List.cons_append, List.cons_prefix_cons] at h
      have := hall a (List.mem_cons_self _ _)
      rw [h.1] at this
      exact absurd this (by decide)
    | cons b n0 =>
      simp only [List.cons_append, List.cons_prefix_cons] at h
      rw [h.1, ih n0 (fun c hc => hall c (List.mem_cons_of_mem _ hc))
        (fun c hc => hall0 c (List.mem_cons_of_mem _ hc)) h.2]

theorem amp_not_mem_name (name : List Char) (hall : ∀ c ∈ name, isAsciiLetter c = true) :
    '&' ∉ name ++ [';'] := by
  intro h
  rcases List.mem_append.mp h with h | h
  · exact absurd (hall _ h) (by decide)
  · simp at h

/-- Where an entity-shaped literal can occur in a text that starts with one. -/
theorem literal_occurrence_cases (name name0 tail : List Char)
    (hall : ∀ c ∈ name, isAsciiLetter c = true) (hall0 : ∀ c ∈ name0, isAsciiLetter c = true)
    (h : ('&' :: (name ++ [';'])) <:+: '&' :: (name0 ++ ';' :: tail)) :
    name = name0 ∨ ('&' :: (name ++ [';'])) <:+: tail := by
  rw [List.infix_cons_iff] at h
  rcases h with h | h
  · left
    rw [List.cons_prefix_cons] at h
    exact name_eq_of_starts name name0 tail hall hall0 h.2
  · right
    have : name0 ++ ';' :: tail = (name0 ++ [';']) ++ tail := by simp
    rw [this] at h
    exact occurrence_skip _ _ _ (amp_not_mem_name name0 hall0) h

/-- The first character of the decoded text, when it is a letter or `;`, was the first
character of the text and was kept. -/
theorem decodeEntities_head (s out : List Char) (e : Char)
    (he : isAsciiLetter e = true ∨ e = ';') (h : decodeEntities s = e :: out) :
    ∃ rest, s = e :: rest ∧ out = decodeEntities rest := by
  cases s with
  | nil => rw [decodeEntities_nil] at h; cases h
  | cons d rest =>
    cases hm : entityMatch (d :: rest) with
    | none =>
      rw [decodeEntities_keep d rest hm] at h
      simp at h
      exact ⟨rest, by rw [h.1], h.2.symm⟩
    | some p =>
      exfalso
      obtain ⟨len, repl⟩ := p
      obtain ⟨name, tail, hs, hne, hall, _, _⟩ := entityMatch_some hm
      rw [hs, decodeEntities_literal name tail hne hall] at h
      rcases decodeEntity_value ('&' :: (name ++ [';'])) with hv | ⟨v, hv, hv1, hv2, _⟩
      · rw [hv] at h
        simp at h
        rcases he with he | he
        · rw [← h.1] at he; exact absurd he (by decide)
        · rw [← h.1] at he; exact absurd he (by decide)
      · rw [hv] at h
        simp at h
        rcases he with he | he
        · rw [← h.1, hv1] at he; cases he
        · exact hv2 (h.1.trans he)

theorem decodeEntities_prefix (name : List Char) (hall : ∀ c ∈ name, isAsciiLetter c = true) :
    ∀ rest out, decodeEntities rest = name ++ ';' :: out →
      ∃ tail, rest = name ++ ';' :: tail := by
  induction name with
  | nil =>
    intro rest out h
    obtain ⟨r, hr, _⟩ := decodeEntities_head rest out ';' (Or.inr rfl) h
    exact ⟨r, hr⟩
  | cons a n ih =>
    intro rest out h
    obtain ⟨r, hr, hout⟩ := decodeEntities_head rest (n ++ ';' :: out) a
      (Or.inl (hall a (List.mem_cons_self _ _))) h
    obtain ⟨tail, ht⟩ := ih (fun c hc => hall c (List.mem_cons_of_mem _ hc)) r out hout.symm
    exact ⟨tail, by rw [hr, ht]; rfl⟩

theorem decodeEntities_entityFree (x : List Char) (hamp : ¬ "&amp;".toList <:+: x) :
    EntityFree (decodeEntities x) := by
  refine decodeEntities_induction
    (fun s out => ¬ "&amp;".toList <:+: s → EntityFree out) (fun _ => ?_) ?_ ?_ x hamp
  · intro name _ _ h
    simp at h
  · intro c rest hm ih ha name hne hall hin
    have ihr := ih (fun h => ha (List.infix_cons h))
    rw [List.infix_cons_iff] at hin
    rcases hin with hin | hin
    · exfalso
      rw [List.cons_prefix_cons] at hin
      obtain ⟨out, hout⟩ := hin.2
      obtain ⟨tail, ht⟩ := decodeEntities_prefix name hall rest out (by rw [← hout]; simp)
      rw [← hin.1, ht, entityMatch_literal name tail hne hall] at hm
      cases hm
    · exact ihr name hne hall hin
  · intro name0 tail hne0 hall0 ih ha name hne hall hin
    have hpre : ('&' :: (name0 ++ [';'])) <+: '&' :: (name0 ++ ';' :: tail) :=
      ⟨tail, (literal_append name0 tail).symm⟩
    have hsuf : tail <:+ '&' :: (name0 ++ ';' :: tail) :=
      ⟨'&' :: (name0 ++ [';']), (literal_append name0 tail).symm⟩
    have iht := ih (fun h => ha (h.trans hsuf.isInfix))
    rcases decodeEntity_value ('&' :: (name0 ++ [';'])) with hv | ⟨v, hv, _, _, _, hvamp, _⟩
    · rw [hv, ← literal_append] at hin
      rcases literal_occurrence_cases name name0 _ hall hall0 hin with h | h
      · rw [h]; exact hv
      · exact iht name hne hall h
    · rw [hv, List.singleton_append, List.infix_cons_iff] at hin
      rcases hin with hin | hin
      · exfalso
        rw [List.cons_prefix_cons] at hin
        exact ha (hvamp hin.1.symm ▸ hpre.isInfix)
      · exact iht name hne hall hin

theorem collapseSpaces_starts (w : List Char) (hw : ∀ c ∈ w, isJsSpace c = false) :
    ∀ s, w <+: collapseSpaces s → w <+: s := by
  induction w with
  | nil => intro s _; exact List.nil_prefix
  | cons a w ih =>
    intro s h
    cases s with
    | nil => rw [collapseSpaces_nil] at h; simp at h
    | cons c rest =>
      have ha := hw a (List.mem_cons_self _ _)
      cases hc : isJsSpace c with
      | true =>
        rw [collapseSpaces_space c rest hc, List.cons_prefix_cons] at h
        rw [h.1] at ha
        exact absurd ha (by decide)
      | false =>
        rw [collapseSpaces_other c rest hc, List.cons_prefix_cons] at h
        rw [List.cons_prefix_cons]
        exact ⟨h.1, ih (fun d hd => hw d (List.mem_cons_of_mem _ hd)) rest h.2⟩

theorem collapseSpaces_occurs (w : List Char) (hne : w ≠ [])
    (hw : ∀ c ∈ w, isJsSpace c = false) (s : List Char) :
    w <:+: collapseSpaces s → w <:+: s := by
  refine collapseSpaces_induction (fun s out => w <:+: out → w <:+: s) ?_ ?_ ?_ s
  · exact id
  · intro c rest hc ih h
    rw [List.infix_cons_iff] at h
    rcases h with h | h
    · have : w <+: collapseSpaces (c :: rest) := by rwa [collapseSpaces_other c rest hc]
      exact (collapseSpaces_starts w hw _ this).isInfix
    · exact List.infix_cons (ih h)
  · intro c rest _ ih h
    rw [List.infix_cons_iff] at h
    rcases h with h | h
    · exfalso
      cases w with
      | nil => exact hne rfl
      | cons a w =>
        rw [List.cons_prefix_cons] at h
        have := hw a (List.mem_cons_self _ _)
        rw [h.1] at this
        exact absurd this (by decide)
    · exact List.infix_cons ((ih h).trans (List.dropWhile_suffix _).isInfix)

theorem isJsSpace_literal (name : List Char) (hall : ∀ c ∈ name, isAsciiLetter c = true) :
    ∀ c ∈ '&' :: (name ++ [';']), isJsSpace c = false := by
  intro c hc
  simp at hc
  rcases hc with rfl | hc | rfl
  · decide
  · have hl := hall c hc
    cases hs : isJsSpace c with
    | false => rfl
    | true =>
      exfalso
      simp only [isAsciiLetter, isJsSpace] at hl hs
      simp at hl hs
      omega
  · decide

theorem entityFree_collapseSpaces {y : List Char} (h : EntityFree y) :
    EntityFree (collapseSpaces y) :=
  fun name hne hall hin =>
    h name hne hall (collapseSpaces_occurs _ (by simp) (isJsSpace_literal name hall) y hin)

theorem collapseSpaces_of_normal (s : List Char) (h : SpaceNormal s) :
    collapseSpaces s = s := by
  refine collapseSpaces_induction (fun s out => SpaceNormal s → out = s) (fun _ => rfl)
    ?_ ?_ s h
  · intro c rest _ ih hn
    rw [ih (spaceNormal_within hn (List.suffix_cons c rest).isInfix)]
  · intro c rest hc ih hn
    have hrest : rest.dropWhile isJsSpace = rest := by
      cases rest with
      | nil => rfl
      | cons d rest =>
        have hd := (List.chain'_cons.mp hn.2).1
        have : isJsSpace d = false := by
          cases hd' : isJsSpace d with
          | false => rfl
          | true => exact absurd ⟨hc, hd'⟩ hd
        simp [List.dropWhile_cons, this]
    rw [hrest] at ih ⊢
    rw [ih (spaceNormal_within hn (List.suffix_cons c rest).isInfix),
      hn.1 c (List.mem_cons_self _ _) hc]

theorem trim_of_trimmed (t : List Char)
    (hhead : ∀ c, t.head? = some c → isJsSpace c = false)
    (hlast : ∀ c, t.getLast? = some c → isJsSpace c = false) : trim t = t := by
  have h1 : t.dropWhile isJsSpace = t := by
    cases t with
    | nil => rfl
    | cons a t => simp [List.dropWhile_cons, hhead a rfl]
  rw [trim_eq, h1, List.rdropWhile_eq_self_iff]
  intro hl
  have := hlast _ (List.getLast?_eq_getLast _ hl)
  simp [this]

/-- The hypothesis of idempotence: none of the three literals whose decoded character is
markup (`&amp;`, `&lt;`, `&gt;`) occurs in the text. -/
theorem cleanHtml_fixed (x : List Char) (hamp : ¬ "&amp;".toList <:+: x)
    (hlt : ¬ "&lt;".toList <:+: x) (hgt : ¬ "&gt;".toList <:+: x) (hx : NoTag x) :
    cleanHtml (trim (collapseSpaces (decodeEntities x))) =
      trim (collapseSpaces (decodeEntities x)) := by
  have htag : NoTag (trim (collapseSpaces (decodeEntities x))) := by
    refine noTag_within ?_ (trim_within _)
    rw [← noTag_angles, angles_collapseSpaces, angles_decodeEntities _ hlt hgt, noTag_angles]
    exact hx
  have hent : EntityFree (trim (collapseSpaces (decodeEntities x))) :=
    entityFree_within (entityFree_collapseSpaces (decodeEntities_entityFree x hamp)) (trim_within _)
  have hnorm : SpaceNormal (trim (collapseSpaces (decodeEntities x))) :=
    spaceNormal_within (collapseSpaces_normal _) (trim_within _)
  unfold cleanHtml
  rw [stripTags_of_noTag _ htag, decodeEntities_of_entityFree _ hent,
    collapseSpaces_of_normal _ hnorm]
  exact trim_of_trimmed _ (trim_head _) (trim_getLast _)

/-- C3, as amended: `cleanHtml(cleanHtml(s)) = cleanHtml(s)` for every `s` in which the
text left by tag removal contains none of the entity literals `&amp;`, `&lt;`, `&gt;`. -/
theorem cleanHtml_idempotent (s : List Char) (hamp : ¬ "&amp;".toList <:+: stripTags s)
    (hlt : ¬ "&lt;".toList <:+: stripTags s) (hgt : ¬ "&gt;".toList <:+: stripTags s) :
    cleanHtml (cleanHtml s) = cleanHtml s :=
  cleanHtml_fixed (stripTags s) hamp hlt hgt (stripTags_spec s).1

/-- C3 fails as stated: the second pass decodes the entity that the first pass produced from
`&amp;lt;`, and removes the tag that the first pass produced from `&lt;b&gt;`. -/
theorem cleanHtml_not_idempotent :
    cleanHtml "&amp;lt;".toList = "&lt;".toList ∧
    cleanHtml (cleanHtml "&amp;lt;".toList) = "<".toList ∧
    cleanHtml (cleanHtml "&amp;lt;".toList) ≠ cleanHtml "&amp;lt;".toList ∧
    cleanHtml (cleanHtml "x&lt;b&gt;".toList) ≠ cleanHtml "x&lt;b&gt;".toList := by
  decide

/-- The amended C3 at an input with tags, a known and an unknown entity, and runs of
whitespace. -/
theorem cleanHtml_idempotent_witness :
    ¬ "&amp;".toList <:+: stripTags " <p>caf&eacute; &copy;  2024 &quot;ok&quot;</p> ".toList ∧
    ¬ "&lt;".toList <:+: stripTags " <p>caf&eacute; &copy;  2024 &quot;ok&quot;</p> ".toList ∧
    ¬ "&gt;".toList <:+: stripTags " <p>caf&eacute; &copy;  2024 &quot;ok&quot;</p> ".toList ∧
    cleanHtml " <p>caf&eacute; &copy;  2024 &quot;ok&quot;</p> ".toList
      = "caf&eacute; ".toList ++ [Char.ofNat 0xA9] ++ " 2024 \"ok\"".toList ∧
    cleanHtml (cleanHtml " <p>caf&eacute; &copy;  2024 &quot;ok&quot;</p> ".toList)
      = cleanHtml " <p>caf&eacute; &copy;  2024 &quot;ok&quot;</p> ".toList :=
  ⟨by decide, by decide, by decide, by decide,
    cleanHtml_idempotent _ (by decide) (by decide) (by decide)⟩

/-! ## formatResponse -/

theorem formatLine_fence (chalk : Chalk) (hl : Highlighter) (st : FormatState)
    (line : List Char) (h : startsWith line fence = true) :
    formatLine chalk hl st line =
      Except.ok (FormatState.mk st.formattedText (!st.inCodeBlock)
        (if (!st.inCodeBlock) = true then trim (sliceFrom line 3) else [])) := by
  simp [formatLine, h]

theorem formatLine_other (chalk : Chalk) (hl : Highlighter) (st : FormatState)
    (line : List Char) (h : startsWith line fence = false) :
    formatLine chalk hl st line =
      Except.map
        (fun r => FormatState.mk (st.formattedText ++ r ++ ['\n']) st.inCodeBlock st.codeLang)
        (renderLine chalk hl st line) := by
  unfold formatLine renderLine
  rw [h]
  cases hb : st.inCodeBlock with
  | false => simp [Except.map]
  | true =>
    simp only [Bool.false_eq_true, if_false, if_true]
    cases renderCode chalk hl st.codeLang line <;> rfl

theorem formatFrom_cons (chalk : Chalk) (hl : Highlighter) (st : FormatState)
    (line : List Char) (rest : List (List Char)) :
    formatFrom chalk hl st (line :: rest) =
      match formatLine chalk hl st line with
      | Except.ok next => formatFrom chalk hl next rest
      | Except.error e => Except.error e := rfl

theorem rendered_cons (chalk : Chalk) (hl : Highlighter) (st : FormatState)
    (line : List Char) (rest : List (List Char)) :
    rendered chalk hl st (line :: rest) =
      match formatLine chalk hl st line with
      | Except.error e => Except.error e
      | Except.ok next =>
        match rendered chalk hl next rest with
        | Except.error e => Except.error e
        | Except.ok rs =>
          if startsWith line fence then Except.ok rs
          else
            match renderLine chalk hl st line with
            | Except.ok r => Except.ok (r :: rs)
            | Except.error e => Except.error e := rfl

theorem joinLines_cons (r : List Char) (rs : List (List Char)) :
    joinLines (r :: rs) = r ++ ['\n'] ++ joinLines rs := by
  simp [joinLines]

theorem formatFrom_text (chalk : Chalk) (hl : Highlighter) (lines : List (List Char)) :
    ∀ st, Except.map FormatState.formattedText (formatFrom chalk hl st lines) =
      Except.map (fun rs => st.formattedText ++ joinLines rs) (rendered chalk hl st lines) := by
  induction lines with
  | nil => intro st; simp [formatFrom, rendered, Except.map, joinLines]
  | cons line rest ih =>
    intro st
    rw [formatFrom_cons, rendered_cons]
    cases hfence : startsWith line fence with
    | true =>
      rw [formatLine_fence chalk hl st line hfence]
      simp only
      rw [ih]
      cases rendered chalk hl _ rest <;> simp [Except.map]
    | false =>
      cases hr : renderLine chalk hl st line with
      | error e =>
        have hfl : formatLine chalk hl st line = Except.error e := by
          rw [formatLine_other chalk hl st line hfence, hr]; rfl
        rw [hfl]
        rfl
      | ok r =>
        have hfl : formatLine chalk hl st line = Except.ok
            (FormatState.mk (st.formattedText ++ r ++ ['\n']) st.inCodeBlock st.codeLang) := by
          rw [formatLine_other chalk hl st line hfence, hr]; rfl
        rw [hfl]
        simp only
        rw [ih]
        cases rendered chalk hl _ rest with
        | error e => rfl
        | ok rs => simp [Except.map, joinLines_cons]

theorem formatResponse_eq (chalk : Chalk) (hl : Highlighter) (text : List Char) :
    formatResponse chalk hl text =
      Except.map joinLines (rendered chalk hl initialState (splitLines text)) := by
  have h := formatFrom_text chalk hl (splitLines text) initialState
  have h1 : formatResponse chalk hl text =
      Except.map FormatState.formattedText (formatFrom chalk hl initialState (splitLines text)) := by
    unfold formatResponse formatLines
    cases formatFrom chalk hl initialState (splitLines text) <;> rfl
  rw [h1, h]
  cases rendered chalk hl initialState (splitLines text) <;> simp [Except.map, initialState]

theorem rendered_length (chalk : Chalk) (hl : Highlighter) (lines : List (List Char)) :
    ∀ st rs, rendered chalk hl st lines = Except.ok rs →
      rs.length = (lines.filter (fun l => !startsWith l fence)).length := by
  induction lines with
  | nil =>
    intro st rs h
    simp [rendered] at h
    subst h
    rfl
  | cons line rest ih =>
    intro st rs h
    rw [rendered_cons] at h
    cases hf : formatLine chalk hl st line with
    | error e => rw [hf] at h; cases h
    | ok next =>
      rw [hf] at h
      simp only at h
      cases hrest : rendered chalk hl next rest with
      | error e => rw [hrest] at h; cases h
      | ok rs0 =>
        rw [hrest] at h
        simp only at h
        have ih0 := ih next rs0 hrest
        cases hfence : startsWith line fence with
        | true =>
          rw [hfence] at h
          simp only [if_true] at h
          cases h
          simp [List.filter_cons, hfence, ih0]
        | false =>
          rw [hfence] at h
          simp only [Bool.false_eq_true, if_false] at h
          cases hr : renderLine chalk hl st line with
          | error e => rw [hr] at h; cases h
          | ok r =>
            rw [hr] at h
            cases h
            simp [List.filter_cons, hfence, ih0]

theorem newline_not_mem_cleanHtml (s : List Char) : '\n' ∉ cleanHtml s := by
  intro h
  have hn : SpaceNormal (cleanHtml s) :=
    spaceNormal_within (collapseSpaces_normal _) (trim_within _)
  exact absurd (hn.1 _ h (by decide)) (by decide)

theorem newline_not_mem_renderText (chalk : Chalk) (hc : chalk.NewlineFree)
    (line : List Char) (hline : '\n' ∉ line) : '\n' ∉ renderText chalk line := by
  unfold renderText
  split
  · exact hc.1 line hline
  · split
    · intro h
      rcases List.mem_append.mp h with h | h
      · exact hc.2 h
      · exact hline (List.mem_of_mem_drop h)
    · split
      · apply hc.1
        intro h
        exact hline (List.mem_of_mem_take (List.mem_of_mem_drop h))
      · exact hline

theorem newline_not_mem_renderLine (chalk : Chalk) (hl : Highlighter) (hc : chalk.NewlineFree)
    (st : FormatState) (line r : List Char) (hline : '\n' ∉ line)
    (hr : renderLine chalk hl st line = Except.ok r) : '\n' ∉ r := by
  unfold renderLine at hr
  split at hr
  · unfold renderCode at hr
    split at hr
    · cases hr
      exact newline_not_mem_cleanHtml _
    · cases hr
  · cases hr
    exact newline_not_mem_renderText chalk hc line hline

theorem newline_not_mem_rendered (chalk : Chalk) (hl : Highlighter) (hc : chalk.NewlineFree)
    (lines : List (List Char)) (hlines : ∀ l ∈ lines, '\n' ∉ l) :
    ∀ st rs, rendered chalk hl st lines = Except.ok rs → ∀ r ∈ rs, '\n' ∉ r := by
  induction lines with
  | nil =>
    intro st rs h r hr
    simp [rendered] at h
    subst h
    simp at hr
  | cons line rest ih =>
    intro st rs h
    rw [rendered_cons] at h
    cases hf : formatLine chalk hl st line with
    | error e => rw [hf] at h; cases h
    | ok next =>
      rw [hf] at h
      simp only at h
      cases hrest : rendered chalk hl next rest with
      | error e => rw [hrest] at h; cases h
      | ok rs0 =>
        rw [hrest] at h
        simp only at h
        have ih0 := ih (fun l hl' => hlines l (List.mem_cons_of_mem _ hl')) next rs0 hrest
        cases hfence : startsWith line fence with
        | true =>
          rw [hfence] at h
          simp only [if_true] at h
          cases h
          exact ih0
        | false =>
          rw [hfence] at h
          simp only [Bool.false_eq_true, if_false] at h
          cases hr : renderLine chalk hl st line with
          | error e => rw [hr] at h; cases h
          | ok r =>
            rw [hr] at h
            cases h
            intro r' hr'
            rcases List.mem_cons.mp hr' with rfl | hr'
            · exact newline_not_mem_renderLine chalk hl hc st line _
                (hlines line (List.mem_cons_self _ _)) hr
            · exact ih0 r' hr'

theorem renderLine_returns (chalk : Chalk) (hl : Highlighter) (hret : hl.Returns)
    (st : FormatState) (line : List Char) : ∃ r, renderLine chalk hl st line = Except.ok r := by
  unfold renderLine renderCode
  obtain ⟨v, hv⟩ := hret.1 line st.codeLang
  obtain ⟨w, hw⟩ := hret.2 line
  by_cases hflag : st.inCodeBlock = true
  · by_cases hlang : st.codeLang = []
    · exact ⟨applyChalk chalk w, by simp [hflag, hlang, hw]⟩
    · exact ⟨applyChalk chalk v, by simp [hflag, hlang, hv]⟩
  · exact ⟨renderText chalk line, by simp [hflag]⟩

theorem formatLine_returns (chalk : Chalk) (hl : Highlighter) (hret : hl.Returns)
    (st : FormatState) (line : List Char) : ∃ next, formatLine chalk hl st line = Except.ok next := by
  cases hfence : startsWith line fence with
  | true => exact ⟨_, formatLine_fence chalk hl st line hfence⟩
  | false =>
    obtain ⟨r, hr⟩ := renderLine_returns chalk hl hret st line
    rw [formatLine_other chalk hl st line hfence, hr]
    exact ⟨_, rfl⟩

theorem formatFrom_returns (chalk : Chalk) (hl : Highlighter) (hret : hl.Returns)
    (lines : List (List Char)) : ∀ st, ∃ last, formatFrom chalk hl st lines = Except.ok last := by
  induction lines with
  | nil => intro st; exact ⟨st, rfl⟩
  | cons line rest ih =>
    intro st
    obtain ⟨next, hn⟩ := formatLine_returns chalk hl hret st line
    rw [formatFrom_cons, hn]
    exact ih next

theorem rendered_returns (chalk : Chalk) (hl : Highlighter) (hret : hl.Returns)
    (lines : List (List Char)) : ∀ st, ∃ rs, rendered chalk hl st lines = Except.ok rs := by
  induction lines with
  | nil => intro st; exact ⟨[], rfl⟩
  | cons line rest ih =>
    intro st
    obtain ⟨next, hn⟩ := formatLine_returns chalk hl hret st line
    obtain ⟨rs, hrs⟩ := ih next
    obtain ⟨r, hr⟩ := renderLine_returns chalk hl hret st line
    rw [rendered_cons, hn]
    simp only [hrs, hr]
    by_cases hfence : startsWith line fence = true
    · exact ⟨rs, by rw [if_pos hfence]⟩
    · exact ⟨r :: rs, by rw [if_neg hfence]⟩

theorem formatLine_error (chalk : Chalk) (hl : Highlighter) (st : FormatState)
    (line : List Char) (e : JsError) (h : formatLine chalk hl st line = Except.error e) :
    (∃ lang, hl.highlight line lang = Except.error e) ∨
      hl.highlightAuto line = Except.error e := by
  cases hfence : startsWith line fence with
  | true => rw [formatLine_fence chalk hl st line hfence] at h; cases h
  | false =>
    rw [formatLine_other chalk hl st line hfence] at h
    unfold renderLine renderCode at h
    by_cases hflag : st.inCodeBlock = true
    · by_cases hlang : st.codeLang = []
      · simp only [hflag, hlang, if_true, ne_eq, not_true_eq_false, if_false] at h
        cases hv : hl.highlightAuto line with
        | error e2 =>
          rw [hv] at h
          simp only [Except.map, Except.error.injEq] at h
          exact Or.inr (by rw [h])
        | ok v => rw [hv] at h; cases h
      · simp only [hflag, if_true, ne_eq, hlang, not_false_eq_true] at h
        cases hv : hl.highlight line st.codeLang with
        | error e2 =>
          rw [hv] at h
          simp only [Except.map, Except.error.injEq] at h
          exact Or.inl ⟨st.codeLang, by rw [hv, h]⟩
        | ok v => rw [hv] at h; cases h
    · simp only [hflag, Bool.false_eq_true, if_false] at h
      cases h

theorem formatFrom_error (chalk : Chalk) (hl : Highlighter) (lines : List (List Char))
    (e : JsError) :
    ∀ st, formatFrom chalk hl st lines = Except.error e →
      ∃ line ∈ lines, (∃ lang, hl.highlight line lang = Except.error e) ∨
        hl.highlightAuto line = Except.error e := by
  induction lines with
  | nil => intro st h; cases h
  | cons line rest ih =>
    intro st h
    rw [formatFrom_cons] at h
    cases hf : formatLine chalk hl st line with
    | error e2 =>
      rw [hf] at h
      simp only [Except.error.injEq] at h
      subst h
      exact ⟨line, List.mem_cons_self _ _, formatLine_error chalk hl st line e2 hf⟩
    | ok next =>
      rw [hf] at h
      obtain ⟨l, hl', hcall⟩ := ih next h
      exact ⟨l, List.mem_cons_of_mem _ hl', hcall⟩

theorem splitLines_cons (c : Char) (rest : List Char) :
    splitLines (c :: rest) =
      if c = '\n' then [] :: splitLines rest
      else
        match splitLines rest with
        | [] => [[c]]
        | l :: ls => (c :: l) :: ls := rfl

theorem newline_not_mem_splitLines (t : List Char) : ∀ l ∈ splitLines t, '\n' ∉ l := by
  induction t with
  | nil => intro l hl; simp [splitLines] at hl; simp [hl]
  | cons c rest ih =>
    intro l hl
    rw [splitLines_cons] at hl
    by_cases hc : c = '\n'
    · rw [if_pos hc] at hl
      rcases List.mem_cons.mp hl with rfl | hl
      · simp
      · exact ih l hl
    · rw [if_neg hc] at hl
      cases hs : splitLines rest with
      | nil =>
        rw [hs] at hl
        simp at hl
        rw [hl]
        simpa using Ne.symm hc
      | cons a as =>
        rw [hs] at hl ih
        rcases List.mem_cons.mp hl with rfl | hl
        · intro hm
          rcases List.mem_cons.mp hm with h | h
          · exact hc h.symm
          · exact ih a (List.mem_cons_self _ _) h
        · exact ih l (List.mem_cons_of_mem _ hl)

theorem splitLines_single (line : List Char) (h : '\n' ∉ line) : splitLines line = [line] := by
  induction line with
  | nil => rfl
  | cons c rest ih =>
    have hc : c ≠ '\n' := fun hc => h (hc ▸ List.mem_cons_self _ _)
    rw [splitLines_cons, if_neg hc, ih (fun hm => h (List.mem_cons_of_mem _ hm))]

theorem count_newline_joinLines (rs : List (List Char)) (h : ∀ r ∈ rs, '\n' ∉ r) :
    (joinLines rs).count '\n' = rs.length := by
  induction rs with
  | nil => rfl
  | cons r rs ih =>
    rw [joinLines_cons, List.count_append, List.count_append,
      ih (fun r' hr' => h r' (List.mem_cons_of_mem _ hr')),
      List.count_eq_zero_of_not_mem (h r (List.mem_cons_self _ _))]
    simp
    omega

theorem encaseNewlines_of_not_mem (o c t : List Char) (ht : '\n' ∉ t) :
    encaseNewlines o c t = t := by
  induction t with
  | nil => rfl
  | cons a t ih =>
    have ha : a ≠ '\n' := fun h => ht (h ▸ List.mem_cons_self _ _)
    have ht' : '\n' ∉ t := fun h => ht (List.mem_cons_of_mem _ h)
    cases t with
    | nil => simp [encaseNewlines, ha]
    | cons d rest =>
      have hd : d ≠ '\n' := fun h => ht' (h ▸ List.mem_cons_self _ _)
      simp only [encaseNewlines, if_neg ha, hd, and_false, if_false]
      rw [ih ht']

theorem sgr_newline_free (a b : String) (ha : '\n' ∉ a.toList) (hb : '\n' ∉ b.toList)
    (t : List Char) (ht : '\n' ∉ t) : '\n' ∉ sgr a b t := by
  unfold sgr
  rw [encaseNewlines_of_not_mem _ _ t ht]
  split
  · simp
  · simp only [List.mem_append, not_or]
    refine ⟨⟨⟨⟨⟨⟨?_, ha⟩, ?_⟩, ht⟩, ?_⟩, hb⟩, ?_⟩ <;> decide

theorem ansiChalk_newlineFree : ansiChalk.NewlineFree :=
  ⟨fun t ht => sgr_newline_free "1" "22" (by decide) (by decide) t ht, by decide⟩

theorem plainChalk_newlineFree : plainChalk.NewlineFree :=
  ⟨fun _ ht => ht, by decide⟩



/-- C6, as amended: `formatResponse(text)` throws exactly when a highlighter call on one of
its code lines throws, and otherwise returns the concatenation, in input order, of the
renderings of the lines of `text` that do not start with the fence, each followed by one
newline.  There are as many renderings as such lines and none contains a newline, so the
output has as many newlines as the input has lines that are not fences.  It returns
whenever no highlighter call throws, and an exception it throws is one that the highlighter
threw on one of the lines; an empty line outside a block is rendered empty; the fenced
example gives one line when the highlighter returns for `js`. -/
theorem formatResponse_lines (chalk : Chalk) (hl : Highlighter) (hc : chalk.NewlineFree)
    (text : List Char) :
    formatResponse chalk hl text =
      Except.map joinLines (rendered chalk hl initialState (splitLines text)) ∧
    (∀ rs, rendered chalk hl initialState (splitLines text) = Except.ok rs →
      rs.length = ((splitLines text).filter (fun l => !startsWith l fence)).length ∧
      ∀ r ∈ rs, '\n' ∉ r) ∧
    (∀ out, formatResponse chalk hl text = Except.ok out →
      out.count '\n' = ((splitLines text).filter (fun l => !startsWith l fence)).length) ∧
    (hl.Returns → ∃ rs, rendered chalk hl initialState (splitLines text) = Except.ok rs ∧
      formatResponse chalk hl text = Except.ok (joinLines rs)) ∧
    (∀ e, formatResponse chalk hl text = Except.error e →
      ∃ line ∈ splitLines text, (∃ lang, hl.highlight line lang = Except.error e) ∨
        hl.highlightAuto line = Except.error e) ∧
    (∀ st : FormatState, st.inCodeBlock = false →
      renderLine chalk hl st [] = Except.ok []) ∧
    formatResponse chalk hl "```js\ncode\n```".toList =
      Except.map (fun v => applyChalk chalk v ++ ['\n'])
        (hl.highlight "code".toList "js".toList) := by
  have heq := formatResponse_eq chalk hl text
  have hprop : ∀ rs, rendered chalk hl initialState (splitLines text) = Except.ok rs →
      rs.length = ((splitLines text).filter (fun l => !startsWith l fence)).length ∧
      ∀ r ∈ rs, '\n' ∉ r := fun rs hrs =>
    ⟨rendered_length chalk hl _ _ rs hrs,
      newline_not_mem_rendered chalk hl hc (splitLines text)
        (newline_not_mem_splitLines text) initialState rs hrs⟩
  refine ⟨heq, hprop, ?_, ?_, ?_, ?_, ?_⟩
  · intro out hout
    rw [heq] at hout
    cases hrs : rendered chalk hl initialState (splitLines text) with
    | error e => rw [hrs] at hout; cases hout
    | ok rs =>
      rw [hrs] at hout
      simp only [Except.map, Except.ok.injEq] at hout
      rw [← hout, count_newline_joinLines rs (hprop rs hrs).2, (hprop rs hrs).1]
  · intro hret
    obtain ⟨rs, hrs⟩ := rendered_returns chalk hl hret (splitLines text) initialState
    exact ⟨rs, hrs, by rw [heq, hrs]; rfl⟩
  · intro e he
    apply formatFrom_error chalk hl (splitLines text) e initialState
    unfold formatResponse formatLines at he
    cases hf : formatFrom chalk hl initialState (splitLines text) with
    | ok st => rw [hf] at he; cases he
    | error e2 =>
      rw [hf] at he
      simp only [Except.error.injEq] at he
      rw [he]
  · intro st hst
    simp [renderLine, hst, renderText, startsWith]
  · have hs : splitLines "```js\ncode\n```".toList =
        ["```js".toList, "code".toList, "```".toList] := by decide
    have hlang : trim (sliceFrom "```js".toList 3) = "js".toList := by decide
    have h1 : formatLine chalk hl initialState "```js".toList =
        Except.ok (FormatState.mk [] true "js".toList) := by
      rw [formatLine_fence chalk hl _ _ (by decide), hlang]
      rfl
    have h2 : formatLine chalk hl (FormatState.mk [] true "js".toList) "code".toList =
        Except.map (fun v => FormatState.mk (applyChalk chalk v ++ ['\n']) true "js".toList)
          (hl.highlight "code".toList "js".toList) := by
      rw [formatLine_other chalk hl _ _ (by decide)]
      simp only [renderLine, renderCode, if_true]
      rw [if_pos (by decide)]
      cases hl.highlight "code".toList "js".toList <;> simp [Except.map]
    unfold formatResponse formatLines
    rw [hs, formatFrom_cons, h1]
    simp only
    rw [formatFrom_cons, h2]
    cases hl.highlight "code".toList "js".toList with
    | error e => rfl
    | ok v =>
      simp only [Except.map]
      rw [formatFrom_cons, formatLine_fence chalk hl _ _ (by decide)]
      rfl

/-- The amended C6 at a text with a heading, an empty line, a fenced block of a registered
language and a bold span: four lines are not fences, and the output has four newlines. -/
theorem formatResponse_lines_witness :
    ansiChalk.NewlineFree ∧
    formatResponse ansiChalk strictHighlighter "# T\n\n```js\nx  y\n```\n**b**".toList =
      Except.ok "\x1b[1m# T\x1b[22m\n\nx y\n\x1b[1mb\x1b[22m\n".toList ∧
    "\x1b[1m# T\x1b[22m\n\nx y\n\x1b[1mb\x1b[22m\n".toList.count '\n' = 4 :=
  ⟨ansiChalk_newlineFree, by decide,
    ((formatResponse_lines ansiChalk strictHighlighter ansiChalk_newlineFree
      "# T\n\n```js\nx  y\n```\n**b**".toList).2.2.1 _ (by decide)).trans (by decide)⟩

/-- C6 fails as stated: the highlighter throws for a language that is not registered, and
`formatResponse` does not catch the exception, so it returns no text at all for a block
of the language `foo`. -/
theorem formatResponse_unknown_language_throws :
    formatResponse plainChalk strictHighlighter "```foo\ncode\n```".toList =
      Except.error (JsError.error "Unknown language") ∧
    ((splitLines "```foo\ncode\n```".toList).filter (fun l => !startsWith l fence)).length = 1 := by
  decide

theorem formatResponse_single_line (chalk : Chalk) (hl : Highlighter) (line : List Char)
    (hnl : '\n' ∉ line) (hf : startsWith line fence = false) :
    formatResponse chalk hl line = Except.ok (renderText chalk line ++ ['\n']) := by
  rw [formatResponse_eq, splitLines_single line hnl]
  simp [rendered, formatLine, hf, renderLine, initialState, Except.map, joinLines]

theorem renderText_bold_span (chalk : Chalk) (mid : List Char) :
    renderText chalk ("**".toList ++ mid ++ "**".toList) = chalk.bold mid := by
  have h1 : startsWith ("**".toList ++ mid ++ "**".toList) "# ".toList = false := by
    simp [startsWith, List.isPrefixOf]
  have h2 : startsWith ("**".toList ++ mid ++ "**".toList) "* ".toList = false := by
    simp [startsWith, List.isPrefixOf]
  have h3 : startsWith ("**".toList ++ mid ++ "**".toList) "**".toList = true := by
    simp [startsWith, List.isPrefixOf]
  have h4 : endsWith ("**".toList ++ mid ++ "**".toList) "**".toList = true := by
    simp only [endsWith, List.isSuffixOf_iff_suffix]
    exact ⟨"**".toList ++ mid, rfl⟩
  have h5 : slice ("**".toList ++ mid ++ "**".toList) 2 (-2) = mid := by
    have e1 : sliceIndex ("**".toList ++ mid ++ "**".toList).length (-2) = mid.length + 2 := by
      simp [sliceIndex]
      omega
    have e2 : sliceIndex ("**".toList ++ mid ++ "**".toList).length 2 = 2 := by
      simp [sliceIndex]
    unfold slice
    rw [e1, e2]
    have : "**".toList ++ mid ++ "**".toList = ("**".toList ++ mid) ++ "**".toList := rfl
    rw [List.take_append_eq_append_take]
    simp
  simp only [renderText, h1, h2, h3, h4, h5]
  simp

/-- C1: a single line that is not a fence is rendered by `renderText` and followed by one
newline; `renderText` follows the priority order of the claim (heading, bullet, bold span,
verbatim).  The code has no length test on the bold span: the lines `**` and `***` start
and end with `**`, and are rendered as `bold('')`, not verbatim. -/
theorem formatResponse_single_line_table (chalk : Chalk) (hl : Highlighter) :
    (∀ line, '\n' ∉ line → startsWith line fence = false →
      formatResponse chalk hl line = Except.ok (renderText chalk line ++ ['\n'])) ∧
    (∀ line, startsWith line "# ".toList = true → renderText chalk line = chalk.bold line) ∧
    (∀ line, startsWith line "# ".toList = false → startsWith line "* ".toList = true →
      renderText chalk line = chalk.green "• ".toList ++ line.drop 2) ∧
    (∀ mid, renderText chalk ("**".toList ++ mid ++ "**".toList) = chalk.bold mid) ∧
    (∀ line, startsWith line "# ".toList = false → startsWith line "* ".toList = false →
      (startsWith line "**".toList && endsWith line "**".toList) = false →
      renderText chalk line = line) ∧
    formatResponse chalk hl "**".toList = Except.ok (chalk.bold [] ++ ['\n']) ∧
    formatResponse chalk hl "***".toList = Except.ok (chalk.bold [] ++ ['\n']) ∧
    formatResponse plainChalk hl "***".toList = Except.ok "\n".toList ∧
    formatResponse ansiChalk hl "***".toList = Except.ok "\n".toList ∧
    formatResponse ansiChalk hl "***".toList ≠ Except.ok "***\n".toList := by
  refine ⟨formatResponse_single_line chalk hl, ?_, ?_, renderText_bold_span chalk, ?_,
    rfl, rfl, rfl, rfl, ?_⟩
  · intro line h
    unfold renderText
    rw [if_pos h]
  · intro line h1 h2
    have hlen : 2 ≤ line.length := by
      have := (List.isPrefixOf_iff_prefix.mp h2).length_le
      simpa using this
    unfold renderText
    rw [if_neg (by rw [h1]; decide), if_pos h2]
    have : sliceIndex line.length 2 = 2 := by
      simp [sliceIndex]
      omega
    simp only [sliceFrom, this]
  · intro line h1 h2 h3
    unfold renderText
    rw [if_neg (by rw [h1]; decide), if_neg (by rw [h2]; decide), if_neg (by rw [h3]; decide)]
  · rw [show formatResponse ansiChalk hl "***".toList = Except.ok "\n".toList from rfl]
    decide

/-! ## The fence state -/

theorem formatFrom_append (chalk : Chalk) (hl : Highlighter) (a b : List (List Char)) :
    ∀ st, formatFrom chalk hl st (a ++ b) =
      match formatFrom chalk hl st a with
      | Except.ok mid => formatFrom chalk hl mid b
      | Except.error e => Except.error e := by
  induction a with
  | nil => intro st; rfl
  | cons line rest ih =>
    intro st
    rw [List.cons_append, formatFrom_cons, formatFrom_cons]
    cases formatLine chalk hl st line with
    | error e => rfl
    | ok next => exact ih next

theorem formatFrom_single (chalk : Chalk) (hl : Highlighter) (st : FormatState)
    (line : List Char) : formatFrom chalk hl st [line] = formatLine chalk hl st line := by
  rw [formatFrom_cons]
  cases formatLine chalk hl st line <;> rfl

theorem formatLines_append_single (chalk : Chalk) (hl : Highlighter) (pre : List (List Char))
    (line : List Char) :
    formatLines chalk hl (pre ++ [line]) =
      match formatLines chalk hl pre with
      | Except.ok st => formatLine chalk hl st line
      | Except.error e => Except.error e := by
  unfold formatLines
  rw [formatFrom_append]
  cases formatFrom chalk hl initialState pre with
  | error e => rfl
  | ok st => exact formatFrom_single chalk hl st line

theorem formatLine_other_state (chalk : Chalk) (hl : Highlighter) (st next : FormatState)
    (line : List Char) (h : startsWith line fence = false)
    (hn : formatLine chalk hl st line = Except.ok next) :
    next.inCodeBlock = st.inCodeBlock ∧ next.codeLang = st.codeLang := by
  rw [formatLine_other chalk hl st line h] at hn
  cases hr : renderLine chalk hl st line with
  | error e => rw [hr] at hn; cases hn
  | ok r =>
    rw [hr] at hn
    simp only [Except.map, Except.ok.injEq] at hn
    rw [← hn]
    exact ⟨rfl, rfl⟩

theorem formatLines_state (chalk : Chalk) (hl : Highlighter) (pre : List (List Char)) :
    ∀ st, formatLines chalk hl pre = Except.ok st →
      st.inCodeBlock = decide ((pre.filter (fun l => startsWith l fence)).length % 2 = 1) ∧
      st.codeLang =
        (match (pre.filter (fun l => startsWith l fence)).getLast? with
         | some f =>
           if (pre.filter (fun l => startsWith l fence)).length % 2 = 1 then
             trim (sliceFrom f 3)
           else []
         | none => []) := by
  induction pre using List.reverseRecOn with
  | nil =>
    intro st h
    have : st = initialState := by
      simp [formatLines, formatFrom] at h
      exact h.symm
    subst this
    exact ⟨rfl, rfl⟩
  | append_singleton pre line ih =>
    intro st h
    rw [formatLines_append_single] at h
    cases hpre : formatLines chalk hl pre with
    | error e => rw [hpre] at h; cases h
    | ok st0 =>
      rw [hpre] at h
      simp only at h
      obtain ⟨ih1, ih2⟩ := ih st0 hpre
      cases hfence : startsWith line fence with
      | true =>
        rw [formatLine_fence chalk hl _ line hfence] at h
        simp only [Except.ok.injEq] at h
        rw [← h]
        have hfil : (pre ++ [line]).filter (fun l => startsWith l fence) =
            pre.filter (fun l => startsWith l fence) ++ [line] := by
          simp [List.filter_append, List.filter_cons, hfence]
        rw [hfil, List.getLast?_append, List.length_append]
        simp only [List.getLast?_singleton, List.length_singleton, Option.or_some]
        rw [ih1]
        have hpar : decide ((List.filter (fun l => startsWith l fence) pre).length % 2 = 1) =
            !decide (((List.filter (fun l => startsWith l fence) pre).length + 1) % 2 = 1) := by
          by_cases hp : (List.filter (fun l => startsWith l fence) pre).length % 2 = 1
          · have : ((List.filter (fun l => startsWith l fence) pre).length + 1) % 2 ≠ 1 := by
              omega
            simp [hp, this]
          · have : ((List.filter (fun l => startsWith l fence) pre).length + 1) % 2 = 1 := by
              omega
            simp [hp, this]
        rw [hpar]
        simp
      | false =>
        obtain ⟨g1, g2⟩ := formatLine_other_state chalk hl st0 st line hfence h
        have hfil : (pre ++ [line]).filter (fun l => startsWith l fence) =
            pre.filter (fun l => startsWith l fence) := by
          simp [List.filter_append, List.filter_cons, hfence]
        rw [hfil, g1, g2]
        exact ⟨ih1, ih2⟩

/-- C7, as amended: as long as no highlighter call has thrown (`formatResponse` throws at
the first call that does, and renders nothing further), the fence state toggles strictly
per fence line.  After any lines `pre` that were processed, `inCodeBlock` is true exactly
when `pre` has an odd number of fence lines, `codeLang` is then the trimmed text after the
backticks of the last fence line of `pre`, and is empty when the flag is false.  A
following line that is not a fence is passed to the highlighter (for `codeLang`, automatic
detection when it is empty) exactly when the flag is true, and is rendered through
`applyChalk` when that call returns.  After an opening fence `f` that no later fence
closes, every later line that is reached is passed to the highlighter as code of the
language of `f`.  The state is reached whenever no highlighter call throws. -/
theorem formatLines_fence_toggle (chalk : Chalk) (hl : Highlighter) (pre : List (List Char)) :
    (hl.Returns → ∃ st, formatLines chalk hl pre = Except.ok st) ∧
    (∀ st, formatLines chalk hl pre = Except.ok st →
      st.inCodeBlock = decide ((pre.filter (fun l => startsWith l fence)).length % 2 = 1) ∧
      st.codeLang =
        (match (pre.filter (fun l => startsWith l fence)).getLast? with
         | some f =>
           if (pre.filter (fun l => startsWith l fence)).length % 2 = 1 then
             trim (sliceFrom f 3)
           else []
         | none => []) ∧
      (st.inCodeBlock = false → st.codeLang = []) ∧
      (∀ line, startsWith line fence = false →
        formatLines chalk hl (pre ++ [line]) =
          if (pre.filter (fun l => startsWith l fence)).length % 2 = 1 then
            Except.map
              (fun v => FormatState.mk (st.formattedText ++ applyChalk chalk v ++ ['\n'])
                st.inCodeBlock st.codeLang)
              (if st.codeLang ≠ [] then hl.highlight line st.codeLang
               else hl.highlightAuto line)
          else
            Except.ok (FormatState.mk (st.formattedText ++ renderText chalk line ++ ['\n'])
              st.inCodeBlock st.codeLang)) ∧
      (∀ f a line mid, startsWith f fence = true →
        (pre.filter (fun l => startsWith l fence)).length % 2 = 0 →
        (∀ l ∈ a, startsWith l fence = false) → startsWith line fence = false →
        formatLines chalk hl (pre ++ f :: a) = Except.ok mid →
        mid.inCodeBlock = true ∧ mid.codeLang = trim (sliceFrom f 3) ∧
        formatLines chalk hl (pre ++ f :: a ++ [line]) =
          Except.map
            (fun v => FormatState.mk (mid.formattedText ++ applyChalk chalk v ++ ['\n'])
              true (trim (sliceFrom f 3)))
            (if trim (sliceFrom f 3) ≠ [] then hl.highlight line (trim (sliceFrom f 3))
             else hl.highlightAuto line))) := by
  refine ⟨fun hret => formatFrom_returns chalk hl hret pre initialState, ?_⟩
  intro st hst
  obtain ⟨h1, h2⟩ := formatLines_state chalk hl pre st hst
  refine ⟨h1, h2, ?_, ?_, ?_⟩
  · intro hfalse
    rw [h1] at hfalse
    have hpar : ¬ (pre.filter (fun l => startsWith l fence)).length % 2 = 1 := by
      simpa using hfalse
    rw [h2]
    cases (pre.filter (fun l => startsWith l fence)).getLast? with
    | none => rfl
    | some f => simp only [if_neg hpar]
  · intro line hline
    rw [formatLines_append_single, hst]
    simp only
    rw [formatLine_other chalk hl _ line hline]
    unfold renderLine renderCode
    rw [h1]
    by_cases hpar : (pre.filter (fun l => startsWith l fence)).length % 2 = 1
    · simp only [hpar, decide_True, if_true]
      cases (if st.codeLang ≠ [] then hl.highlight line st.codeLang
        else hl.highlightAuto line) <;> rfl
    · simp only [hpar, decide_False, if_false, Bool.false_eq_true]
      rfl
  · intro f a line mid hf hpar ha hline hmid
    have hfil : (pre ++ f :: a).filter (fun l => startsWith l fence) =
        pre.filter (fun l => startsWith l fence) ++ [f] := by
      rw [List.filter_append, List.filter_cons, if_pos hf]
      congr 2
      rw [List.filter_eq_nil_iff]
      intro l hl'
      rw [ha l hl']
      decide
    obtain ⟨g1, g2⟩ := formatLines_state chalk hl (pre ++ f :: a) mid hmid
    rw [hfil] at g1 g2
    have hodd : ((pre.filter (fun l => startsWith l fence)) ++ [f]).length % 2 = 1 := by
      rw [List.length_append, List.length_singleton]
      omega
    rw [hodd] at g1
    rw [List.getLast?_append, List.getLast?_singleton, Option.or_some] at g2
    simp only [hodd, if_true, Option.getD_some] at g2
    have g1' : mid.inCodeBlock = true := by simpa using g1
    refine ⟨g1', g2, ?_⟩
    have happ : pre ++ f :: a ++ [line] = (pre ++ f :: a) ++ [line] := by simp
    rw [happ, formatLines_append_single, hmid]
    simp only
    rw [formatLine_other chalk hl _ line hline]
    unfold renderLine renderCode
    rw [g1', g2]
    simp only [if_true]
    cases (if trim (sliceFrom f 3) ≠ [] then hl.highlight line (trim (sliceFrom f 3))
      else hl.highlightAuto line) <;> rfl

/-- C7 fails as stated: after the unclosed opening fence of an unregistered language the
highlighter throws on the first line of the block, `formatResponse` leaves the loop there
and no remaining line is rendered; the next line is never reached. -/
theorem formatResponse_unclosed_fence_throws :
    formatLines plainChalk strictHighlighter ["```foo".toList] =
      Except.ok (FormatState.mk [] true "foo".toList) ∧
    formatLines plainChalk strictHighlighter ["```foo".toList, "a".toList] =
      Except.error (JsError.error "Unknown language") ∧
    formatLines plainChalk strictHighlighter ["```foo".toList, "a".toList, "b".toList] =
      Except.error (JsError.error "Unknown language") ∧
    formatResponse plainChalk strictHighlighter "```foo\na\nb".toList =
      Except.error (JsError.error "Unknown language") := by
  refine ⟨rfl, rfl, rfl, rfl⟩

/-! ## applyChalk -/

theorem cleanHtml_of_clean (t : List Char) (h : Clean t) : cleanHtml t = t := by
  have htag : NoTag t := by
    intro pre post hp _
    exact (h '<' (by rw [hp]; simp)).1 rfl
  have hent : EntityFree t := by
    intro name _ _ hin
    exact absurd rfl (h '&' (hin.subset (List.mem_cons_self _ _))).2.2.1
  have hnorm : SpaceNormal t := by
    refine ⟨fun c hc hs => ?_, ?_⟩
    · rw [(h c hc).2.2.2] at hs; cases hs
    · clear htag hent
      induction t with
      | nil => exact List.chain'_nil
      | cons a t ih =>
        rw [List.chain'_cons']
        refine ⟨fun b _ hab => ?_, ih (fun c hc => h c (List.mem_cons_of_mem _ hc))⟩
        rw [(h a (List.mem_cons_self _ _)).2.2.2] at hab
        exact Bool.noConfusion hab.1
  unfold cleanHtml
  rw [stripTags_of_noTag _ htag, decodeEntities_of_entityFree _ hent,
    collapseSpaces_of_normal _ hnorm]
  apply trim_of_trimmed
  · intro c hc
    exact (h c (List.mem_of_mem_head? hc)).2.2.2
  · intro c hc
    exact (h c (List.mem_of_mem_getLast? hc)).2.2.2

theorem afterLiteral_append (lit s : List Char) : afterLiteral lit (lit ++ s) = some s := by
  induction lit with
  | nil => cases s <;> rfl
  | cons a lit ih => simp [afterLiteral, ih]

theorem lazyDotUntil_clean (text : List Char) (h : Clean text) :
    lazyDotUntil spanClose (text ++ spanClose) = some text := by
  induction text with
  | nil => rfl
  | cons c text ih =>
    have hc := h c (List.mem_cons_self _ _)
    have h1 : spanClose.isPrefixOf (c :: (text ++ spanClose)) = false := by
      simp [spanClose, List.isPrefixOf, hc.1.symm]
    have h2 : isLineTerminator c = false := by
      have := hc.2.2.2
      cases hlt : isLineTerminator c with
      | false => rfl
      | true =>
        exfalso
        simp only [isLineTerminator, isJsSpace] at hlt this
        simp at hlt this
        omega
    rw [List.cons_append]
    simp only [lazyDotUntil, h1, h2]
    rw [ih (fun d hd => h d (List.mem_cons_of_mem _ hd))]
    rfl

theorem spanMatch_spanOf (chalk : Chalk) (category text : List Char) (hne : category ≠ [])
    (hcat : ∀ c ∈ category, isWordChar c = true) (htext : Clean text) :
    spanMatch chalk (spanOf category text) =
      some ((spanOf category text).length, styleOf chalk category text) := by
  have hshape : spanOf category text =
      spanOpen ++ (category ++ ('"' :: '>' :: (text ++ spanClose))) := by
    simp [spanOf]
  have hq : isWordChar '"' = false := by decide
  have h1 : (category ++ ('"' :: '>' :: (text ++ spanClose))).takeWhile isWordChar = category := by
    rw [List.takeWhile_append_of_pos hcat]
    simp [List.takeWhile_cons, hq]
  have h2 : (category ++ ('"' :: '>' :: (text ++ spanClose))).dropWhile isWordChar =
      '"' :: '>' :: (text ++ spanClose) := by
    rw [List.dropWhile_append_of_pos hcat]
    simp [List.dropWhile_cons, hq]
  have h3 : afterLiteral "\">".toList ('"' :: '>' :: (text ++ spanClose)) =
      some (text ++ spanClose) := afterLiteral_append "\">".toList _
  unfold spanMatch
  rw [hshape, afterLiteral_append]
  simp only [h1, h2, h3]
  cases category with
  | nil => exact absurd rfl hne
  | cons c p1 =>
    simp only [lazyDotUntil_clean text htext]
    simp
    omega

theorem replaceAll_whole (m : Matcher) (s repl : List Char) (hs : s ≠ [])
    (h : m s = some (s.length, repl)) : replaceAll m s = repl := by
  cases s with
  | nil => exact absurd rfl hs
  | cons c rest =>
    rw [replaceAll_cons_some m c rest _ repl h]
    simp [replaceAll_nil]

theorem styleOf_clean (chalk : Chalk) (hc : chalk.Safe) (category text : List Char)
    (h : Clean text) : Clean (styleOf chalk category text) := by
  obtain ⟨h1, h2, h3, h4, h5, h6, h7, h8⟩ := hc text h
  unfold styleOf
  repeat' split
  all_goals assumption

theorem spanMatch_none_of_head (chalk : Chalk) (c : Char) (rest : List Char) (hc : c ≠ '<') :
    spanMatch chalk (c :: rest) = none := by
  have : afterLiteral spanOpen (c :: rest) = none := by
    simp [spanOpen, afterLiteral, hc.symm]
  simp [spanMatch, this]

theorem replaceAll_spanMatch_keep (chalk : Chalk) (pre s : List Char) (hpre : ∀ c ∈ pre, c ≠ '<') :
    replaceAll (spanMatch chalk) (pre ++ s) = pre ++ replaceAll (spanMatch chalk) s := by
  induction pre with
  | nil => rfl
  | cons c pre ih =>
    rw [List.cons_append, replaceAll_cons_none _ _ _
      (spanMatch_none_of_head chalk c _ (hpre c (List.mem_cons_self _ _))),
      ih (fun d hd => hpre d (List.mem_cons_of_mem _ hd))]
    rfl

theorem stripTags_keep (pre s : List Char) (hpre : ∀ c ∈ pre, c ≠ '<') :
    stripTags (pre ++ s) = pre ++ stripTags s := by
  induction pre with
  | nil => rfl
  | cons c pre ih =>
    have hm : tagMatch (c :: (pre ++ s)) = none := by
      rw [tagMatch_cons, if_neg]
      exact fun h => hpre c (List.mem_cons_self _ _) h.1
    unfold stripTags at ih ⊢
    rw [List.cons_append, replaceAll_cons_none _ _ _ hm,
      ih (fun d hd => hpre d (List.mem_cons_of_mem _ hd))]
    rfl

theorem applyChalk_span_empty (chalk : Chalk) (text : List Char) (htext : Clean text) :
    applyChalk chalk (spanOf [] text) = text := by
  have hlt : ∀ c ∈ text, c ≠ '<' := fun c hc => (htext c hc).1
  have hshape : spanOf [] text =
      '<' :: ("span class=\"hljs-\">".toList ++ text ++ spanClose) := by
    simp [spanOf, spanOpen]
  have hnone : spanMatch chalk (spanOf [] text) = none := by
    have h0 : spanOf [] text = spanOpen ++ ('"' :: '>' :: (text ++ spanClose)) := by
      simp [spanOf]
    unfold spanMatch
    rw [h0, afterLiteral_append]
    have hq : isWordChar '"' = false := by decide
    simp [List.takeWhile_cons, hq]
  have hscan : replaceAll (spanMatch chalk) (spanOf [] text) = spanOf [] text := by
    rw [hshape] at hnone ⊢
    rw [replaceAll_cons_none _ _ _ hnone, List.append_assoc,
      replaceAll_spanMatch_keep chalk _ _ (by decide),
      replaceAll_spanMatch_keep chalk _ _ hlt]
    rfl
  have hstrip : stripTags (spanOf [] text) = text := by
    have hm : tagMatch (spanOf [] text) = some (20, []) := by
      rw [hshape, tagMatch_cons, if_pos]
      · have hpre : "span class=\"hljs-\">".toList ++ text ++ spanClose =
            "span class=\"hljs-\"".toList ++ ('>' :: (text ++ spanClose)) := by simp
        rw [hpre, List.takeWhile_append_of_pos (by decide)]
        simp [List.takeWhile_cons]
      · exact ⟨rfl, by simp⟩
    have hdrop : ("span class=\"hljs-\">".toList ++ text ++ spanClose).drop (20 - 1) =
        text ++ spanClose := by
      simp
    unfold stripTags
    rw [hshape] at hm ⊢
    rw [replaceAll_cons_some _ _ _ _ _ hm, hdrop]
    have := stripTags_keep text spanClose hlt
    unfold stripTags at this
    rw [this]
    have hclose : replaceAll tagMatch spanClose = [] := by decide
    rw [hclose]
    simp
  have hclean := cleanHtml_of_clean text htext
  unfold applyChalk
  rw [hscan]
  unfold cleanHtml at hclean ⊢
  rw [hstrip]
  have hnt : NoTag text := by
    intro pre post hp _
    exact (htext '<' (by rw [hp]; simp)).1 rfl
  rwa [stripTags_of_noTag _ hnt] at hclean

theorem applyChalk_spanOf (chalk : Chalk) (hc : chalk.Safe) (category text : List Char)
    (hcat : ∀ c ∈ category, isWordChar c = true) (htext : Clean text) :
    applyChalk chalk (spanOf category text) = styleOf chalk category text := by
  by_cases hne : category = []
  · subst hne
    rw [applyChalk_span_empty chalk text htext]
    rfl
  · unfold applyChalk
    rw [replaceAll_whole _ _ _ (by simp [spanOf, spanOpen])
      (spanMatch_spanOf chalk category text hne hcat htext)]
    exact cleanHtml_of_clean _ (styleOf_clean chalk hc category text htext)

theorem sgr_clean (a b : String) (ha : Clean a.toList) (hb : Clean b.toList) (t : List Char)
    (ht : Clean t) : Clean (sgr a b t) := by
  have hn : '\n' ∉ t := fun h => absurd (ht _ h).2.2.2 (by decide)
  unfold sgr
  rw [encaseNewlines_of_not_mem _ _ t hn]
  split
  · intro c hc; simp at hc
  · intro c hc
    simp only [List.mem_append] at hc
    have hfix : ∀ d ∈ [Char.ofNat 27, '[', 'm'],
        d ≠ '<' ∧ d ≠ '>' ∧ d ≠ '&' ∧ isJsSpace d = false := by decide
    rcases hc with ((((((hc | hc) | hc) | hc) | hc) | hc) | hc)
    · exact hfix c (by simp at hc ⊢; tauto)
    · exact ha c hc
    · exact hfix c (by simp at hc ⊢; tauto)
    · exact ht c hc
    · exact hfix c (by simp at hc ⊢; tauto)
    · exact hb c hc
    · exact hfix c (by simp at hc ⊢; tauto)

theorem ansiChalk_safe : ansiChalk.Safe := by
  intro t ht
  refine ⟨?_, ?_, ?_, ?_, ?_, ?_, ?_, ?_⟩ <;>
    exact sgr_clean _ _ (by decide) (by decide) t ht

theorem plainChalk_safe : plainChalk.Safe :=
  fun _ ht => ⟨ht, ht, ht, ht, ht, ht, ht, ht⟩

/-- C8: for a category of word characters and a text without `<`, `>`, `&` and whitespace,
`applyChalk` of `<span class="hljs-C">TEXT</span>` is the text in the style that the table
gives to the category (keyword blue, string green, built_in cyan, comment gray, title
yellow, params magenta, function red, operator white), the text unchanged for any other
category, and the result has no markup; the keyword `if` comes out as `blue('if')`. -/
theorem applyChalk_category_table (chalk : Chalk) (hc : chalk.Safe) (category text : List Char)
    (hcat : ∀ c ∈ category, isWordChar c = true) (htext : Clean text) :
    applyChalk chalk (spanOf category text) = styleOf chalk category text ∧
    (styleOf chalk "keyword".toList text = chalk.blue text ∧
     styleOf chalk "string".toList text = chalk.green text ∧
     styleOf chalk "built_in".toList text = chalk.cyan text ∧
     styleOf chalk "comment".toList text = chalk.gray text ∧
     styleOf chalk "title".toList text = chalk.yellow text ∧
     styleOf chalk "params".toList text = chalk.magenta text ∧
     styleOf chalk "function".toList text = chalk.red text ∧
     styleOf chalk "operator".toList text = chalk.white text) ∧
    (category ∉ ["keyword", "string", "built_in", "comment", "title", "params", "function",
        "operator"].map String.toList →
      applyChalk chalk (spanOf category text) = text) ∧
    Clean (applyChalk chalk (spanOf category text)) ∧
    applyChalk chalk "<span class=\"hljs-keyword\">if</span>".toList = chalk.blue "if".toList := by
  have hmain := applyChalk_spanOf chalk hc category text hcat htext
  refine ⟨hmain, ⟨rfl, rfl, rfl, rfl, rfl, rfl, rfl, rfl⟩, ?_, ?_, ?_⟩
  · intro hnot
    rw [hmain]
    simp only [List.map_cons, List.map_nil, List.mem_cons, List.mem_nil_iff, or_false,
      not_or] at hnot
    obtain ⟨h1, h2, h3, h4, h5, h6, h7, h8⟩ := hnot
    simp only [styleOf, if_neg h1, if_neg h2, if_neg h3, if_neg h4, if_neg h5, if_neg h6,
      if_neg h7, if_neg h8]
  · rw [hmain]
    exact styleOf_clean chalk hc category text htext
  · exact applyChalk_spanOf chalk hc "keyword".toList "if".toList (by decide) (by decide)

/-- C8 at the category `string` and the text `abc`, on a colour terminal. -/
theorem applyChalk_category_table_witness :
    ansiChalk.Safe ∧ (∀ c ∈ "string".toList, isWordChar c = true) ∧ Clean "abc".toList ∧
    applyChalk ansiChalk (spanOf "string".toList "abc".toList) =
      [Char.ofNat 27] ++ "[32mabc".toList ++ [Char.ofNat 27] ++ "[39m".toList :=
  ⟨ansiChalk_safe, by decide, by decide,
    (applyChalk_category_table ansiChalk ansiChalk_safe "string".toList "abc".toList
      (by decide) (by decide)).1.trans (by decide)⟩

/-! ## The dispatcher and the shell -/


theorem resolve_spinner (locals : List String) (h : "spinner" ∉ locals) :
    resolve (catchScope locals) "spinner" =
      Except.error (JsError.referenceError "spinner") := by
  unfold resolve
  rw [if_neg]
  unfold catchScope
  simp only [List.mem_append, not_or]
  exact ⟨⟨by decide, h⟩, by decide⟩

/-- C4: when the GET is rejected, or the response has no list of items, the `catch` block
of `searchStackOverflow` evaluates `spinner.fail(...)` where no `spinner` is in scope: the
call raises a ReferenceError instead of returning the empty list, and the caller's own
`catch` reports it; only a successful search returns normally. -/
theorem searchStackOverflow_failure_raises (question : List Char → Except JsError (List Char))
    (query : List Char) (e : JsError) (links : List (List Char)) :
    searchStackOverflow (Backend.mk question (fun _ => Except.error e)) query =
      ([Event.get query], Except.error (JsError.referenceError "spinner")) ∧
    searchStackOverflow (Backend.mk question (fun _ => Except.ok none)) query =
      ([Event.get query], Except.error (JsError.referenceError "spinner")) ∧
    searchStackOverflow (Backend.mk question (fun _ => Except.ok (some links))) query =
      ([Event.get query], Except.ok links) ∧
    answerQuery plainChalk plainHighlighter offlineSearchBackend "fix this bug".toList =
      [Event.question "fix this bug".toList, Event.log "ok\n".toList,
       Event.get "fix this bug".toList,
       Event.error "Error calling API:" (JsError.referenceError "spinner")] := by
  have hs := resolve_spinner [] (by simp)
  refine ⟨?_, ?_, ?_, ?_⟩
  · simp only [searchStackOverflow, hs]
  · simp only [searchStackOverflow, hs]
  · simp only [searchStackOverflow]
  · decide

theorem askQuestion_events (backend : Backend) (query : List Char) :
    (askQuestion backend query).1 = [Event.question query] := by
  unfold askQuestion
  rw [resolve_spinner ["params"] (by decide)]
  cases backend.question query <;> rfl

theorem searchStackOverflow_events (backend : Backend) (query : List Char) :
    (searchStackOverflow backend query).1 = [Event.get query] := by
  unfold searchStackOverflow
  rw [resolve_spinner [] (by simp)]
  cases backend.get query with
  | error e => rfl
  | ok r => cases r <;> rfl

theorem answerQuery_head (chalk : Chalk) (hl : Highlighter) (backend : Backend)
    (query : List Char) :
    (answerQuery chalk hl backend query).head? = some (Event.question query) := by
  have h := askQuestion_events backend query
  unfold answerQuery
  cases hq : askQuestion backend query with
  | mk evs r =>
    rw [hq] at h
    simp only at h
    subst h
    cases r with
    | error e => simp
    | ok response => cases hf : formatResponse chalk hl response <;> simp [hf]

theorem exit_not_mem_answerQuery (chalk : Chalk) (hl : Highlighter) (backend : Backend)
    (query : List Char) (code : Nat) :
    Event.exit code ∉ answerQuery chalk hl backend query := by
  have h := askQuestion_events backend query
  have h2 := searchStackOverflow_events backend query
  unfold answerQuery
  cases hq : askQuestion backend query with
  | mk evs r =>
    rw [hq] at h
    simp only at h
    subst h
    cases r with
    | error e => simp
    | ok response =>
      cases hf : formatResponse chalk hl response with
      | error e => simp [hf]
      | ok formatted =>
        simp only [hf]
        cases hs : searchStackOverflow backend query with
        | mk evs2 r2 =>
          rw [hs] at h2
          simp only at h2
          subst h2
          cases r2 with
          | error e => by_cases hc : isCodingQuery query = true <;> simp [hc]
          | ok links =>
            by_cases hc : isCodingQuery query = true <;>
              by_cases hlen : links.length > 0 <;> simp [hc, hlen]

theorem main_single_shot_eq (chalk : Chalk) (hl : Highlighter) (backend : Backend)
    (argv : List (List Char)) (hh : hasFlag argv "-h" "--help" = false)
    (hv : hasFlag argv "-v" "--version" = false)
    (hi : hasFlag argv "-i" "--interactive" = false) :
    main chalk hl backend argv =
      if (argv.drop 2).length = 0 then [Event.usage, Event.exit 1]
      else answerQuery chalk hl backend (queryOf (argv.drop 2)) := by
  unfold main
  simp only [hh, hv, hi, Bool.false_eq_true, if_false]

/-- C5, as amended: in single-shot mode `main` exits with code 1, without calling
`askQuestion`, exactly when the argument list is empty; with at least one argument it
calls `askQuestion` with the filtered query, also when that query is empty, and does not
exit with code 1. -/
theorem main_usage_error_iff_no_arguments (chalk : Chalk) (hl : Highlighter)
    (backend : Backend) (argv : List (List Char)) (hh : hasFlag argv "-h" "--help" = false)
    (hv : hasFlag argv "-v" "--version" = false)
    (hi : hasFlag argv "-i" "--interactive" = false) :
    (Event.exit 1 ∈ main chalk hl backend argv ↔ argv.drop 2 = []) ∧
    (argv.drop 2 = [] → main chalk hl backend argv = [Event.usage, Event.exit 1]) ∧
    (argv.drop 2 ≠ [] →
      main chalk hl backend argv = answerQuery chalk hl backend (queryOf (argv.drop 2)) ∧
      (main chalk hl backend argv).head? = some (Event.question (queryOf (argv.drop 2)))) := by
  have hm := main_single_shot_eq chalk hl backend argv hh hv hi
  have hempty : argv.drop 2 = [] → main chalk hl backend argv = [Event.usage, Event.exit 1] := by
    intro h
    rw [hm, h]
    rfl
  have hsome : argv.drop 2 ≠ [] →
      main chalk hl backend argv = answerQuery chalk hl backend (queryOf (argv.drop 2)) := by
    intro h
    rw [hm, if_neg]
    rwa [List.length_eq_zero]
  refine ⟨⟨?_, ?_⟩, hempty, ?_⟩
  · intro hmem
    by_contra hne
    rw [hsome hne] at hmem
    exact exit_not_mem_answerQuery chalk hl backend _ 1 hmem
  · intro h
    rw [hempty h]
    simp
  · intro h
    refine ⟨hsome h, ?_⟩
    rw [hsome h]
    exact answerQuery_head chalk hl backend _

/-- C5 fails as stated: with the single argument `/foo` the filtered query is empty, and
`main` calls `askQuestion` with the empty query instead of exiting with code 1. -/
theorem main_slash_argument_asks :
    hasFlag ["node".toList, "index.js".toList, "/foo".toList] "-h" "--help" = false ∧
    hasFlag ["node".toList, "index.js".toList, "/foo".toList] "-v" "--version" = false ∧
    hasFlag ["node".toList, "index.js".toList, "/foo".toList] "-i" "--interactive" = false ∧
    queryOf ["/foo".toList] = [] ∧
    main plainChalk plainHighlighter answeringBackend
        ["node".toList, "index.js".toList, "/foo".toList] =
      [Event.question [], Event.log "ok\n".toList] ∧
    Event.exit 1 ∉ main plainChalk plainHighlighter answeringBackend
        ["node".toList, "index.js".toList, "/foo".toList] := by
  decide

/-- The amended C5 at the empty argument list. -/
theorem main_usage_error_iff_no_arguments_witness :
    hasFlag ["node".toList, "index.js".toList] "-h" "--help" = false ∧
    hasFlag ["node".toList, "index.js".toList] "-v" "--version" = false ∧
    hasFlag ["node".toList, "index.js".toList] "-i" "--interactive" = false ∧
    (Event.exit 1 ∈ main plainChalk plainHighlighter answeringBackend
        ["node".toList, "index.js".toList] ↔
      (["node".toList, "index.js".toList] : List (List Char)).drop 2 = []) ∧
    main plainChalk plainHighlighter answeringBackend ["node".toList, "index.js".toList] =
      [Event.usage, Event.exit 1] :=
  ⟨by decide, by decide, by decide,
    (main_usage_error_iff_no_arguments plainChalk plainHighlighter answeringBackend
      ["node".toList, "index.js".toList] (by decide) (by decide) (by decide)).1,
    (main_usage_error_iff_no_arguments plainChalk plainHighlighter answeringBackend
      ["node".toList, "index.js".toList] (by decide) (by decide) (by decide)).2.1 rfl⟩

/-- C9, as amended: none of the thirteen words of the heuristic occurs in `What is a
segmentation fault?`, so the test is false for it and neither mode calls
`searchStackOverflow` or prints a links section: after a successful answer the shell
prints the formatted answer, or, when `formatResponse` throws, the error message of its
`catch` block, and nothing else (interactive mode then prompts again).  A query such as
`Why does this function crash?` does match. -/
theorem segmentation_fault_query_no_search (chalk : Chalk) (hl : Highlighter)
    (backend : Backend) :
    isCodingQuery "What is a segmentation fault?".toList = false ∧
    (∀ response, backend.question "What is a segmentation fault?".toList = Except.ok response →
      main chalk hl backend
          ["node".toList, "index.js".toList, "What is a segmentation fault?".toList] =
        [Event.question "What is a segmentation fault?".toList,
         match formatResponse chalk hl response with
         | Except.ok formatted => Event.log formatted
         | Except.error e => Event.error "Error calling API:" e] ∧
      onLine chalk hl backend "What is a segmentation fault?".toList =
        [Event.question "What is a segmentation fault?".toList,
         match formatResponse chalk hl response with
         | Except.ok formatted => Event.log formatted
         | Except.error e => Event.error "Error calling API:" e,
         Event.prompt]) ∧
    (∀ q, Event.get q ∉ main chalk hl backend
      ["node".toList, "index.js".toList, "What is a segmentation fault?".toList]) ∧
    (∀ q, Event.get q ∉ onLine chalk hl backend "What is a segmentation fault?".toList) ∧
    isCodingQuery "Why does this function crash?".toList = true := by
  have hq : isCodingQuery "What is a segmentation fault?".toList = false := by decide
  have hmain : main chalk hl backend
      ["node".toList, "index.js".toList, "What is a segmentation fault?".toList] =
      answerQuery chalk hl backend "What is a segmentation fault?".toList := rfl
  have hline : onLine chalk hl backend "What is a segmentation fault?".toList =
      answerQuery chalk hl backend "What is a segmentation fault?".toList ++ [Event.prompt] :=
    rfl
  have hans : ∀ q, Event.get q ∉
      answerQuery chalk hl backend "What is a segmentation fault?".toList := by
    intro q
    unfold answerQuery
    rw [hq]
    have h := askQuestion_events backend "What is a segmentation fault?".toList
    cases hr : askQuestion backend "What is a segmentation fault?".toList with
    | mk evs r =>
      rw [hr] at h
      simp only at h
      subst h
      cases r with
      | error e => simp
      | ok response => cases hf : formatResponse chalk hl response <;> simp [hf]
  refine ⟨hq, ?_, ?_, ?_, by decide⟩
  · intro response hresp
    have hask : askQuestion backend "What is a segmentation fault?".toList =
        ([Event.question "What is a segmentation fault?".toList], Except.ok response) := by
      unfold askQuestion
      rw [hresp]
    have : answerQuery chalk hl backend "What is a segmentation fault?".toList =
        [Event.question "What is a segmentation fault?".toList,
         match formatResponse chalk hl response with
         | Except.ok formatted => Event.log formatted
         | Except.error e => Event.error "Error calling API:" e] := by
      unfold answerQuery
      rw [hask, hq]
      cases hf : formatResponse chalk hl response <;> simp [hf]
    rw [hmain, hline, this]
    exact ⟨rfl, rfl⟩
  · intro q
    rw [hmain]
    exact hans q
  · intro q
    rw [hline]
    intro hmem
    rcases List.mem_append.mp hmem with h | h
    · exact hans q h
    · simp at h

/-- C9 fails as stated: the heuristic is false for the query of the claim, and `main`
prints the answer without any call of `searchStackOverflow`. -/
theorem segmentation_fault_query_not_coding :
    isCodingQuery "What is a segmentation fault?".toList = false ∧
    main plainChalk plainHighlighter answeringBackend
        ["node".toList, "index.js".toList, "What is a segmentation fault?".toList] =
      [Event.question "What is a segmentation fault?".toList, Event.log "ok\n".toList] := by
  decide

end PiecesCLI
